import Mathlib

/-!
Verification of the context-snapshot cache engine of the obsidian-life-memory
skill (`hooks/obsidian-preprompt.js`, final revision of the file).

Text is modelled as `List Char` (`Str`).  Every definition below is a direct
transcription of the corresponding JavaScript function of the hook; the
JavaScript name is kept.  File/CLI acquisition and SHA-256 hashing are
platform facilities, so the handler model takes the acquired texts and the
hash function as explicit parameters.
-/

set_option maxRecDepth 4096

namespace Hook

abbrev Str := List Char

/-- Characters accepted by JavaScript `String.prototype.trim` and by the
regex class `\s` (ASCII whitespace, NBSP, line/paragraph separators, BOM). -/
def isJsWs (c : Char) : Bool :=
  c = ' ' || c = '\t' || c = '\n' || c = '\r' || c = '\x0b' || c = '\x0c' ||
  c = '\u00A0' || c = '\u1680' || ('\u2000' ≤ c && c ≤ '\u200A') ||
  c = '\u2028' || c = '\u2029' || c = '\u202F' || c = '\u205F' ||
  c = '\u3000' || c = '\uFEFF'

/-- JavaScript line terminators (where the `m` flag lets `^` match). -/
def isLineTerm (c : Char) : Bool :=
  c = '\n' || c = '\r' || c = '\u2028' || c = '\u2029'

/-- Shorthand turning a Lean string literal into the `Str` model. -/
def S (s : String) : Str := s.data

/-- JavaScript `s.trim()`. -/
def jsTrim (s : Str) : Str :=
  ((s.dropWhile isJsWs).reverse.dropWhile isJsWs).reverse

/-- JavaScript `s.replace(/\r\n?/g, '\n')`. -/
def normalizeNewlines : Str → Str
  | [] => []
  | '\r' :: '\n' :: t => '\n' :: normalizeNewlines t
  | '\r' :: t => '\n' :: normalizeNewlines t
  | c :: t => c :: normalizeNewlines t

/-- JavaScript `s.split('\n')`  (`''.split('\n') = ['']`). -/
def splitNl : Str → List Str
  | [] => [[]]
  | c :: t =>
    if c = '\n' then [] :: splitNl t
    else
      match splitNl t with
      | [] => [[c]]
      | h :: r => (c :: h) :: r

/-- JavaScript `parts.join(sep)`. -/
def joinSep (sep : Str) : List Str → Str
  | [] => []
  | [x] => x
  | x :: y :: xs => x ++ sep ++ joinSep sep (y :: xs)

/-- `parts.join('\n')`. -/
def joinNl (l : List Str) : Str := joinSep (S ("\n")) l

/-- `estimateTokens`: `Math.ceil(text.length / 4)` (as an integer, since the
surrounding budget arithmetic can go negative). -/
def estimateTokens (s : Str) : Int := ((s.length + 3) / 4 : Nat)

/-- Bool test: `needle` is a leading segment of `hay`. -/
def startsWith : Str → Str → Bool
  | [], _ => true
  | _ :: _, [] => false
  | a :: as, b :: bs => a = b && startsWith as bs

/-- Bool test for JavaScript `hay.includes(needle)`. -/
def containsSeg (needle : Str) : Str → Bool
  | [] => startsWith needle []
  | c :: t => startsWith needle (c :: t) || containsSeg needle t

/-- First-occurrence deduplication, i.e. `Array.from(new Set(xs))`. -/
def dedupSeen (seen : List Str) : List Str → List Str
  | [] => []
  | x :: xs => if x ∈ seen then dedupSeen seen xs else x :: dedupSeen (x :: seen) xs

def dedupFirst (l : List Str) : List Str := dedupSeen [] l

/-- `Σ (line.length + 1)` — the character cost used by the line-greedy loops. -/
def sumCost1 (l : List Str) : Nat := l.foldr (fun x a => x.length + 1 + a) 0


/-! ### Configured budgets (constants of the hook) -/

def MAX_SNAPSHOT_CHARS : Nat := 12000
def MAX_SNAPSHOT_TOKENS : Int := 3000        -- Math.ceil(12000 / 4)
def GOVERNANCE_TOKEN_BUDGET : Int := 1200    -- Math.floor(3000 * 0.4)
def DAILY_TOKEN_BUDGET : Int := 1800         -- Math.floor(3000 * 0.6)

/-- `Math.floor(maxChars * 0.65)` — the first-stage character budget.  At the
configured value (12000 → 7800) the double-precision product rounds to the
exact real value, so the rational expression is faithful. -/
def clipBudget (maxChars : Nat) : Nat := 13 * maxChars / 20

/-! ### trimTextToTokenBudget and buildTokenAwareSnapshot -/

/-- The greedy keep-loop of `trimTextToTokenBudget` (`break` semantics,
tracking the remaining budget instead of `used`). -/
def keepWithinTokens : List Str → Int → List Str
  | [], _ => []
  | l :: ls, rem =>
    let cost := estimateTokens (l ++ [ '\n' ])
    if rem < cost then [] else l :: keepWithinTokens ls (rem - cost)

/-- `trimTextToTokenBudget(text, tokenBudget)`. -/
def trimTextToTokenBudget (text : Str) (tokenBudget : Int) : Str :=
  let normalized := jsTrim (normalizeNewlines text)
  if normalized = [] ∨ tokenBudget ≤ 0 then []
  else if estimateTokens normalized ≤ tokenBudget then normalized
  else jsTrim (joinNl (keepWithinTokens (splitNl normalized) tokenBudget))

/-- `buildTokenAwareSnapshot({deltaText, fullSnapshot, tokenBudget})`. -/
def buildTokenAwareSnapshot (deltaText fullSnapshot : Str) (tokenBudget : Int) : Str :=
  let p := if deltaText ≠ [] then
      let deltaBlock := trimTextToTokenBudget (S ("Since you last spoke:\n") ++ deltaText) tokenBudget
      if deltaBlock ≠ [] then ([deltaBlock], tokenBudget - estimateTokens deltaBlock)
      else (([] : List Str), tokenBudget)
    else (([] : List Str), tokenBudget)
  let parts := if fullSnapshot ≠ [] ∧ p.2 > 0 then
      let summaryBlock := trimTextToTokenBudget fullSnapshot p.2
      if summaryBlock ≠ [] then p.1 ++ [summaryBlock] else p.1
    else p.1
  trimTextToTokenBudget (joinSep (S ("\n\n---\n\n")) parts) tokenBudget

/-! ### Structural extraction helpers -/

/-- `/^#{1,6}\s/` — `findHeadingContext`'s heading test. -/
def isHeadingLine (line : Str) : Bool :=
  let hs := line.takeWhile (· = '#')
  1 ≤ hs.length && hs.length ≤ 6 &&
    (match line.drop hs.length with
     | c :: _ => isJsWs c
     | [] => false)

/-- `extractTaskLines`: lines matching `/^\s*- \[( |x|X)\]\s/`. -/
def isTaskLine (line : Str) : Bool :=
  match line.dropWhile isJsWs with
  | '-' :: ' ' :: '[' :: m :: ']' :: w :: _ =>
    (m = ' ' || m = 'x' || m = 'X') && isJsWs w
  | _ => false

def extractTaskLines (lines : List Str) : List Str := lines.filter isTaskLine

/-- One attempted match of `\[\[[^\]]+\]\]` at the current position:
after a literal `[[`, the greedy one-or-more body of non-`]` characters must
be non-empty and must be followed by the literal `]]`. -/
def wikiBody (cs : Str) : Option (Str × Str) :=
  if cs.take 2 = ['[', '['] ∧ (cs.drop 2).takeWhile (· ≠ ']') ≠ [] ∧
      ((cs.drop 2).dropWhile (· ≠ ']')).take 2 = [']', ']'] then
    some (['[', '['] ++ (cs.drop 2).takeWhile (· ≠ ']') ++ [']', ']'],
          ((cs.drop 2).dropWhile (· ≠ ']')).drop 2)
  else none

/-- One attempted match of the optional-bang wikilink pattern at the current
position (when a leading `!` is present but no `[[…]]` follows, the mandatory
`[` cannot match the `!`, so the whole attempt fails). -/
def tryWiki (cs : Str) : Option (Str × Str) :=
  match cs with
  | '!' :: rest => (wikiBody rest).map (fun p => ('!' :: p.1, p.2))
  | _ => wikiBody cs

theorem length_dropWhile_le (p : Char → Bool) (l : Str) :
    (l.dropWhile p).length ≤ l.length := by
  induction l with
  | nil => simp [List.dropWhile]
  | cons c t ih =>
    by_cases h : p c <;> simp [List.dropWhile, h] <;> omega

/-- The global scan of the wikilink regex with `g`-flag semantics: on a match
the scan resumes after the matched token, otherwise it advances one position.
Fuel-indexed structural recursion (each step consumes at least one character,
so `s.length` fuel is exact). -/
def scanWikilinksF : Nat → Str → List Str
  | 0, _ => []
  | _, [] => []
  | fuel + 1, c :: rest =>
    match tryWiki (c :: rest) with
    | some (tok, r) => tok :: scanWikilinksF fuel r
    | none => scanWikilinksF fuel rest

def scanWikilinks (s : Str) : List Str := scanWikilinksF s.length s

def extractWikilinks (text : Str) : List Str := dedupFirst (scanWikilinks text)

/-- The tag character class: letters, digits, underscore, slash, dash. -/
def tagChar (c : Char) : Bool :=
  ('A' ≤ c && c ≤ 'Z') || ('a' ≤ c && c ≤ 'z') || ('0' ≤ c && c ≤ '9') ||
  c = '_' || c = '/' || c = '-'

/-- One attempted match of `#` followed by one or more tag characters. -/
def tagStart (cs : Str) : Option (Str × Str) :=
  if cs.take 1 = ['#'] ∧ (cs.drop 1).takeWhile tagChar ≠ [] then
    some ('#' :: (cs.drop 1).takeWhile tagChar, (cs.drop 1).dropWhile tagChar)
  else none

/-- The global multiline scan of the tag regex (optional line-start anchor or
one whitespace character, then `#` and one or more tag characters), already
normalized by the `matches.map(m => m.trim())` that follows it (the optional
leading whitespace of a match is trimmed away, so the scanner emits the bare
`#tag`).  `als` tracks whether the scan position is at a line start (where
`^` matches under the `m` flag). -/
def scanTagsF : Nat → Bool → Str → List Str
  | 0, _, _ => []
  | _, _, [] => []
  | fuel + 1, als, c :: rest =>
    if als && c = '#' then
      match tagStart (c :: rest) with
      | some (tok, r) => tok :: scanTagsF fuel false r
      | none => scanTagsF fuel (isLineTerm c) rest
    else if isJsWs c then
      match tagStart rest with
      | some (tok, r) => tok :: scanTagsF fuel false r
      | none => scanTagsF fuel (isLineTerm c) rest
    else scanTagsF fuel (isLineTerm c) rest

def extractTags (text : Str) : List Str := dedupFirst (scanTagsF text.length true text)

/-- Number of non-overlapping `%%` matches in a line (`line.match(/%%/g)`). -/
def countPctPairs : Str → Nat
  | '%' :: '%' :: t => 1 + countPctPairs t
  | _ :: t => countPctPairs t
  | [] => 0

/-- `line.includes('%%')`. -/
def hasPctPct : Str → Bool
  | '%' :: '%' :: _ => true
  | _ :: t => hasPctPct t
  | [] => false

/-- `extractCommentLines(lines)` with its `inBlockComment` state machine. -/
def extractCommentLines : List Str → Bool → List Str
  | [], _ => []
  | l :: ls, inBlock =>
    if hasPctPct l then
      let inBlock2 := if countPctPairs l % 2 = 1 then !inBlock else inBlock
      l :: extractCommentLines ls inBlock2
    else if inBlock then l :: extractCommentLines ls inBlock
    else extractCommentLines ls inBlock


/-! ### clipFromTailByLine -/

/-- `lines` paired with their 0-based indices from position `k`. -/
def enumIdx (k : Nat) : List Str → List (Nat × Str)
  | [] => []
  | x :: xs => (k, x) :: enumIdx (k + 1) xs

/-- The backward greedy pick of `clipFromTailByLine` (operating on the
reversed index/line pairs, `continue` semantics: an over-budget line is
skipped and the scan goes on). -/
def clipPickDesc : List (Nat × Str) → Nat → Nat → List Nat
  | [], _, _ => []
  | (i, l) :: rest, used, maxChars =>
    if used + (l.length + 1) > maxChars then clipPickDesc rest used maxChars
    else i :: clipPickDesc rest (used + (l.length + 1)) maxChars

/-- The heading-deduplication pass (`seen` set threaded through). -/
def dedupPassH : List Str → List Str → (List Str × List Str)
  | [], seen => ([], seen)
  | h :: t, seen =>
    if h ∈ seen then dedupPassH t seen
    else
      let p := dedupPassH t (h :: seen)
      (h :: p.1, p.2)

/-- The picked-line pass: a picked line is emitted unless it is a non-empty
duplicate of something already emitted. -/
def pushPicked (lines : List Str) : List Nat → List Str → List Str
  | [], _ => []
  | i :: is, seen =>
    let line := lines.getD i []
    if line = [] ∨ line ∉ seen then line :: pushPicked lines is (line :: seen)
    else pushPicked lines is seen

/-- `clipFromTailByLine(lines, maxChars)`: backward whole-line greedy pick,
then the heading trail (`findHeadingContext`) deduplicated, then the picked
lines in ascending order. -/
def pickedDescOf (lines : List Str) (maxChars : Nat) : List Nat :=
  clipPickDesc ((enumIdx 0 lines).reverse) 0 maxChars

/-- `findHeadingContext(lines, startIdx)` for the first picked index. -/
def headingCtxOf (lines : List Str) (maxChars : Nat) : List Str :=
  (lines.take ((pickedDescOf lines maxChars).reverse.headD 0 + 1)).filter isHeadingLine

def clipFromTailByLine (lines : List Str) (maxChars : Nat) : List Str :=
  if pickedDescOf lines maxChars = [] then []
  else
    (dedupPassH (headingCtxOf lines maxChars) []).1 ++
      pushPicked lines (pickedDescOf lines maxChars).reverse
        (dedupPassH (headingCtxOf lines maxChars) []).2

/-! ### buildObsidianSafeSnapshot -/

def truncMarker : Str := S ("[Truncated safely by line boundaries to preserve Obsidian syntax]")

/-- The `parts` array pushed by `buildObsidianSafeSnapshot` (before the
`filter(Boolean)`), for an input that exceeds the budget. -/
def partsOf (text : Str) (maxChars : Nat) : List Str :=
  [S ("## Recent Snapshot"),
   jsTrim (joinNl (clipFromTailByLine (splitNl text) (clipBudget maxChars)))]
  ++ (if extractTaskLines (splitNl text) ≠ [] then
        [S ("## Tasks (Preserved)"), joinNl (extractTaskLines (splitNl text))] else [])
  ++ (if extractWikilinks text ≠ [] then
        [S ("## Wikilinks (Graph Integrity)"), joinSep (S (" ")) (extractWikilinks text)] else [])
  ++ (if extractTags text ≠ [] then
        [S ("## Tags"), joinSep (S (" ")) (extractTags text)] else [])
  ++ (if extractCommentLines (splitNl text) false ≠ [] then
        [S ("## Comments"), joinNl (extractCommentLines (splitNl text) false)] else [])

/-- `parts.filter(Boolean).join('\n\n').trim()`. -/
def assembledOf (text : Str) (maxChars : Nat) : Str :=
  jsTrim (joinSep (S ("\n\n")) ((partsOf text maxChars).filter (fun p => !p.isEmpty)))

/-- The final-guard loop of `buildObsidianSafeSnapshot` (character greedy with
`continue` semantics over the lines of the assembled text). -/
def keepWithinChars : List Str → Nat → Nat → List Str
  | [], _, _ => []
  | l :: ls, used, maxChars =>
    if used + (l.length + 1) > maxChars then keepWithinChars ls used maxChars
    else l :: keepWithinChars ls (used + (l.length + 1)) maxChars

/-- `buildObsidianSafeSnapshot(raw, maxChars)`. -/
def buildObsidianSafeSnapshot (raw : Str) (maxChars : Nat) : Str :=
  let text := jsTrim (normalizeNewlines raw)
  if text = [] then []
  else if text.length ≤ maxChars then text
  else if (assembledOf text maxChars).length ≤ maxChars then assembledOf text maxChars
  else
    jsTrim (joinNl (keepWithinChars (splitNl (assembledOf text maxChars)) 0 maxChars))
      ++ S ("\n\n") ++ truncMarker

/-! ### buildUnifiedSnapshot -/

def govHeader : Str := S ("# Behavioral Governance\n")

def dailyHeader : Str := S ("# Today's Context (from daily note)\n")

/-- The governance text after its `Math.min(govTokens, GOVERNANCE_TOKEN_BUDGET)`
trim inside `buildUnifiedSnapshot`. -/
def trimmedGovOf (governanceContext : Str) : Str :=
  trimTextToTokenBudget governanceContext
    (min (estimateTokens governanceContext) GOVERNANCE_TOKEN_BUDGET)

/-- The governance stage of `buildUnifiedSnapshot`: the `parts` accumulated so
far and the remaining token budget. -/
def govStage (governanceContext : Str) (tokenBudget : Int) : List Str × Int :=
  if governanceContext ≠ [] then
    if trimmedGovOf governanceContext ≠ [] then
      ([govHeader ++ trimmedGovOf governanceContext],
       tokenBudget - estimateTokens (govHeader ++ trimmedGovOf governanceContext))
    else ([], tokenBudget)
  else ([], tokenBudget)

/-- The daily budget `Math.min(remaining, DAILY_TOKEN_BUDGET)`. -/
def dailyBudgetOf (remaining : Int) : Int := min remaining DAILY_TOKEN_BUDGET

/-- The daily text after its trim inside `buildUnifiedSnapshot`. -/
def trimmedDailyOf (dailyText : Str) (remaining : Int) : Str :=
  trimTextToTokenBudget dailyText (dailyBudgetOf remaining)

/-- `buildUnifiedSnapshot({dailyText, governanceContext, tokenBudget})`. -/
def buildUnifiedSnapshot (dailyText governanceContext : Str) (tokenBudget : Int) : Str :=
  let p := govStage governanceContext tokenBudget
  let parts :=
    if dailyText ≠ [] ∧ p.2 > 0 then
      if trimmedDailyOf dailyText p.2 ≠ [] then
        p.1 ++ [dailyHeader ++ trimmedDailyOf dailyText p.2]
      else p.1
    else p.1
  jsTrim (joinSep (S ("\n\n---\n\n")) parts)

/-! ### The handler's cache logic

State-file IO, CLI/file acquisition of the daily text, governance file reads
and SHA-256 are platform facilities; the pure cache logic takes the acquired
daily text, the assembled governance context, today's date string, the current
ISO timestamp and the hash function as parameters. -/

structure CacheEntry where
  noteHash : Str
  governanceHash : Str
  combinedHash : Str
  snapshot : Str
  lastLineCount : Int
  lastUpdatedIso : Str
deriving DecidableEq

abbrev BootstrapState := List (Str × CacheEntry)

def lookupEntry (d : Str) : BootstrapState → Option CacheEntry
  | [] => none
  | (k, e) :: t => if k = d then some e else lookupEntry d t

/-- JavaScript `state[today] = entry`: replace in place, else append. -/
def setEntry (d : Str) (e : CacheEntry) : BootstrapState → BootstrapState
  | [] => [(d, e)]
  | (k, e0) :: t => if k = d then (d, e) :: t else (k, e0) :: setEntry d e t

/-- `normalizedOutput ? normalizedOutput.split('\n').length : 0`. -/
def lineCountOf (normalized : Str) : Nat :=
  if normalized = [] then 0 else (splitNl normalized).length

/-- JavaScript `arr.slice(k)` for a possibly negative integer `k`. -/
def jsSliceFrom (k : Int) (l : List Str) : List Str :=
  l.drop (if k < 0 then ((l.length : Int) + k).toNat else k.toNat)

/-- The delta computation of the rebuild branch (`dayState.lastLineCount` is
an `Int` in the model, so the `Number.isInteger` guard is always true). -/
def deltaOf (dayState : Option CacheEntry) (normalized : Str) : Str :=
  match dayState with
  | some ds =>
    if (lineCountOf normalized : Int) > ds.lastLineCount then
      jsTrim (joinNl (jsSliceFrom ds.lastLineCount (splitNl normalized)))
    else []
  | none => []

structure HandlerResult where
  snapshot : Str
  state : BootstrapState
  rebuilt : Bool
deriving DecidableEq

/-- The cache entry written by the rebuild branch: snapshot =
`buildUnifiedSnapshot` of the token-aware daily content (delta + full
structural snapshot) and the governance context. -/
def rebuiltEntryOf (dayState : Option CacheEntry)
    (normalizedOutput governanceContext nowIso dailyHash governanceHash combinedHash : Str)
    (lineCount : Nat) : CacheEntry :=
  ⟨dailyHash, governanceHash, combinedHash,
    buildUnifiedSnapshot
      (buildTokenAwareSnapshot (deltaOf dayState normalizedOutput)
        (buildObsidianSafeSnapshot normalizedOutput MAX_SNAPSHOT_CHARS)
        DAILY_TOKEN_BUDGET)
      governanceContext MAX_SNAPSHOT_TOKENS,
    (lineCount : Int), nowIso⟩

/-- The rebuild branch of the handler. -/
def rebuildFor (today : Str) (state0 : BootstrapState) (dayState : Option CacheEntry)
    (normalizedOutput governanceContext nowIso dailyHash governanceHash combinedHash : Str)
    (lineCount : Nat) : HandlerResult :=
  ⟨(rebuiltEntryOf dayState normalizedOutput governanceContext nowIso
      dailyHash governanceHash combinedHash lineCount).snapshot,
    setEntry today
      (rebuiltEntryOf dayState normalizedOutput governanceContext nowIso
        dailyHash governanceHash combinedHash lineCount) state0,
    true⟩

/-- `computeSha256(dailyHash + governanceHash)` with
`dailyHash = computeSha256(normalizedOutput)` and
`governanceHash = computeSha256(governanceContext)`. -/
def combinedHashOf (hash : Str → Str) (obsidianOutput governanceContext : Str) : Str :=
  hash (hash (normalizeNewlines obsidianOutput) ++ hash governanceContext)

/-- The pure core of the third-revision `handler`: cache-hit test and rebuild.
`hash` stands for `computeSha256`. -/
def handlerCore (hash : Str → Str) (today : Str) (state0 : BootstrapState)
    (obsidianOutput governanceContext nowIso : Str) : HandlerResult :=
  match lookupEntry today state0 with
  | some ds =>
    if ds.combinedHash = combinedHashOf hash obsidianOutput governanceContext ∧
        ds.snapshot ≠ [] then
      ⟨ds.snapshot, state0, false⟩
    else
      rebuildFor today state0 (some ds) (normalizeNewlines obsidianOutput)
        governanceContext nowIso (hash (normalizeNewlines obsidianOutput))
        (hash governanceContext) (combinedHashOf hash obsidianOutput governanceContext)
        (lineCountOf (normalizeNewlines obsidianOutput))
  | none =>
      rebuildFor today state0 none (normalizeNewlines obsidianOutput)
        governanceContext nowIso (hash (normalizeNewlines obsidianOutput))
        (hash governanceContext) (combinedHashOf hash obsidianOutput governanceContext)
        (lineCountOf (normalizeNewlines obsidianOutput))

/-! ### extractCriticalConstraints -/

/-- ASCII lowering — the model of `toLowerCase` (the keyword set is ASCII). -/
def asciiLower (c : Char) : Char :=
  if 'A' ≤ c ∧ c ≤ 'Z' then Char.ofNat (c.toNat + 32) else c

/-- ASCII raising — the model of `toUpperCase`. -/
def asciiUpper (c : Char) : Char :=
  if 'a' ≤ c ∧ c ≤ 'z' then Char.ofNat (c.toNat - 32) else c

def criticalKeywords : List Str :=
  [S ("boundaries"), S ("protocol"), S ("critical"), S ("violation"), S ("safety"),
   S ("security"), S ("never"), S ("always"), S ("mandatory"), S ("prohibited"),
   S ("banned"), S ("ban"), S ("penalty"), S ("consequence"), S ("warning"),
   [Char.ofNat 0x26A0, Char.ofNat 0xFE0F], [Char.ofNat 0x1F6AB], [Char.ofNat 0x274C]]

def keywordsIn (lowerLine : Str) : Bool :=
  criticalKeywords.any (fun kw => containsSeg kw lowerLine)

/-- The heading test of the extraction loop: the JS regex `/^(#{1,6})\s+(.+)$/`
applied to one line (the captured title is never used in the output, so the
groups are not modelled).  One to six leading hashes, then a cut of the
remainder into a non-empty whitespace run and a non-empty tail running to the
end of the string with no line-terminator character in it: the dot of the
pattern cannot match a line terminator and, with no multiline flag, the dollar
anchors only at the end of the string, so a line that keeps a trailing
carriage return (a CRLF file split on bare newlines) is NOT a heading.  Such a
cut `k` exists exactly when the interval from `max 1 (rest.length - rmax)`
(`rmax` the maximal line-terminator-free suffix length, so the tail after `k`
is clean) to `min j (rest.length - 1)` (`j` the maximal whitespace run, so the
first `k` characters are whitespace, and the tail after `k` is non-empty) is
non-empty. -/
def headingTest (line : Str) : Bool :=
  let hs := line.takeWhile (· = '#')
  let rest := line.drop hs.length
  1 ≤ hs.length && hs.length ≤ 6 &&
    max 1 (rest.length - (rest.reverse.takeWhile (fun c => !isLineTerm c)).length) ≤
      min (rest.takeWhile isJsWs).length (rest.length - 1)


/-- `/^\s*[-*]\s+/i` — the bullet test. -/
def isBulletStart (line : Str) : Bool :=
  match line.dropWhile isJsWs with
  | c :: w :: _ => (c = '-' || c = '*') && isJsWs w
  | _ => false

/-- The line-scanning loop of `extractCriticalConstraints`: on a heading the
open section is flushed (if critical and non-empty) and a new one begins; a
critical bullet outside a critical section opens a fresh capture; every line
inside a critical capture is accumulated. -/
def extractLoop : List Str → List Str → Bool → List Str → List Str
  | [], currentContent, inCrit, acc =>
    if inCrit ∧ currentContent ≠ [] then acc ++ [jsTrim (joinNl currentContent)] else acc
  | line :: rest, currentContent, inCrit, acc =>
    if headingTest line then
      extractLoop rest [line] (keywordsIn (line.map asciiLower))
        (if inCrit ∧ currentContent ≠ [] then acc ++ [jsTrim (joinNl currentContent)] else acc)
    else
      -- critical bullet outside a critical section: reset the capture, then the
      -- unconditional `if (inCriticalSection) push` appends the line itself
      if isBulletStart line ∧ keywordsIn (line.map asciiLower) ∧ ¬inCrit then
        extractLoop rest [line] true acc
      else
        if inCrit then extractLoop rest (currentContent ++ [line]) inCrit acc
        else extractLoop rest currentContent inCrit acc

def strongKw : List Str := [S ("NEVER"), S ("ALWAYS"), S ("MANDATORY")]

/-- A line whose upper-cased text contains a strong keyword and whose trimmed
text starts with a bullet marker. -/
def isStrongLine (line : Str) : Bool :=
  (strongKw.any (fun kw => containsSeg kw (line.map asciiUpper))) &&
    (match jsTrim line with
     | c :: _ => c = '-' || c = '*'
     | [] => false)

def strongConstraintsOf (lines : List Str) : List Str :=
  (lines.filter isStrongLine).map jsTrim

/-- `extractCriticalConstraints(text, filename)` (the `filename` parameter is
unused by the source function): captured sections, then the deduplicated
strong-constraint bullets under the synthesized heading, joined by blank
lines and trimmed. -/
def extractCriticalConstraints (text : Str) : Str :=
  if text = [] then []
  else
    jsTrim (joinSep (S ("\n\n"))
      (extractLoop (splitNl text) [] false [] ++
        (if dedupFirst (strongConstraintsOf (splitNl text)) ≠ [] then
          S ("## Absolute Constraints") :: dedupFirst (strongConstraintsOf (splitNl text))
        else [])))

/-! ### readBootstrapState

`JSON.parse` is a platform facility: the model quantifies over an arbitrary
parse function that either throws (`Except.error`) or yields a JavaScript
value.  `typeof v === 'object'` holds for objects, arrays and `null`; the
truthiness test rules `null` out. -/

inductive JsValue where
  | jnull : JsValue
  | jbool : Bool → JsValue
  | jnum : Int → JsValue
  | jstr : Str → JsValue
  | jarr : List JsValue → JsValue
  | jobj : List (Str × JsValue) → JsValue

def truthy : JsValue → Bool
  | .jnull => false
  | .jbool b => b
  | .jnum n => n ≠ 0
  | .jstr s => s ≠ []
  | .jarr _ => true
  | .jobj _ => true

def typeofObject : JsValue → Bool
  | .jnull => true
  | .jarr _ => true
  | .jobj _ => true
  | _ => false

def natToDigits (n : Nat) : Str :=
  (Nat.toDigits 10 n)

/-- The string-keyed entries of a JavaScript object value (an array acts as an
object keyed by decimal indices). -/
def jsObjEntries : JsValue → List (Str × JsValue)
  | .jobj fields => fields
  | .jarr elems => (elems.enum.map (fun p => (natToDigits p.1, p.2)))
  | _ => []

/-- `readBootstrapState()` given the state-file content (`none` = missing
file) and the parse function.  Never throws: the `try`/`catch` turns a parse
error into the empty mapping. -/
def readBootstrapState (parse : Str → Except Unit JsValue) (file : Option Str) :
    List (Str × JsValue) :=
  match file with
  | none => []
  | some s =>
    match parse s with
    | .error _ => []
    | .ok parsed => if truthy parsed ∧ typeofObject parsed then jsObjEntries parsed else []


/-! ### Lemmas about `jsTrim` -/

theorem mem_takeWhile_ws {p : Char → Bool} {c : Char} {l : Str}
    (h : c ∈ l.takeWhile p) : p c = true := by
  induction l with
  | nil => simp [List.takeWhile] at h
  | cons d t ih =>
    by_cases hd : p d
    · rw [List.takeWhile_cons, if_pos hd] at h
      rcases List.mem_cons.1 h with rfl | h2
      · exact hd
      · exact ih h2
    · rw [List.takeWhile_cons, if_neg hd] at h
      exact absurd h (List.not_mem_nil c)

theorem length_jsTrim_le (s : Str) : (jsTrim s).length ≤ s.length := by
  unfold jsTrim
  have h1 := length_dropWhile_le isJsWs s
  have h2 := length_dropWhile_le isJsWs (s.dropWhile isJsWs).reverse
  simp at h2 ⊢
  omega

/-- `s` is a whitespace padding around `jsTrim s`. -/
theorem jsTrim_decomp (s : Str) :
    ∃ p r, s = p ++ (jsTrim s ++ r) ∧ (∀ c ∈ p, isJsWs c = true) ∧
      (∀ c ∈ r, isJsWs c = true) := by
  refine ⟨s.takeWhile isJsWs,
    ((s.dropWhile isJsWs).reverse.takeWhile isJsWs).reverse, ?_, ?_, ?_⟩
  · conv_lhs => rw [← List.takeWhile_append_dropWhile isJsWs s]
    congr 1
    unfold jsTrim
    have := List.takeWhile_append_dropWhile isJsWs (s.dropWhile isJsWs).reverse
    have h2 := congrArg List.reverse this
    rw [List.reverse_append] at h2
    conv_lhs => rw [← List.reverse_reverse (s.dropWhile isJsWs)]
    rw [← h2]
  · intro c hc; exact mem_takeWhile_ws hc
  · intro c hc
    rw [List.mem_reverse] at hc
    exact mem_takeWhile_ws hc

theorem dropWhile_eq_self_of_head {p : Char → Bool} {s : Str}
    (h : ∀ c, s.head? = some c → p c = false) : s.dropWhile p = s := by
  cases s with
  | nil => rfl
  | cons c t =>
    have := h c (by rfl)
    simp [List.dropWhile, this]

theorem jsTrim_eq_self {s : Str}
    (hh : ∀ c, s.head? = some c → isJsWs c = false)
    (hl : ∀ c, s.getLast? = some c → isJsWs c = false) : jsTrim s = s := by
  unfold jsTrim
  rw [dropWhile_eq_self_of_head hh]
  rw [dropWhile_eq_self_of_head (by
    intro c hc
    rw [List.head?_reverse] at hc
    exact hl c hc)]
  exact List.reverse_reverse s

theorem head?_dropWhile_not {p : Char → Bool} {l : Str} {c : Char}
    (h : (l.dropWhile p).head? = some c) : p c = false := by
  induction l with
  | nil => simp [List.dropWhile] at h
  | cons d t ih =>
    by_cases hd : p d
    · rw [List.dropWhile_cons, if_pos hd] at h; exact ih h
    · rw [List.dropWhile_cons, if_neg hd] at h
      simp at h
      rw [← h]
      exact Bool.of_not_eq_true hd

theorem getLast?_dropWhile {p : Char → Bool} {l : Str}
    (h : l.dropWhile p ≠ []) : (l.dropWhile p).getLast? = l.getLast? := by
  induction l with
  | nil => simp [List.dropWhile] at h
  | cons d t ih =>
    by_cases hd : p d
    · rw [List.dropWhile_cons, if_pos hd] at h ⊢
      have ht : t ≠ [] := by
        intro he; rw [he] at h; simp [List.dropWhile] at h
      rcases List.exists_cons_of_ne_nil ht with ⟨b, l, rfl⟩
      rw [ih h]
      exact List.getLast?_cons_cons.symm
    · rw [List.dropWhile_cons, if_neg hd]

theorem head_jsTrim_not_ws {s : Str} {c : Char}
    (h : (jsTrim s).head? = some c) : isJsWs c = false := by
  unfold jsTrim at h
  rw [List.head?_reverse] at h
  have hne : (s.dropWhile isJsWs).reverse.dropWhile isJsWs ≠ [] := by
    intro he; rw [he] at h; simp at h
  rw [getLast?_dropWhile hne, List.getLast?_reverse] at h
  exact head?_dropWhile_not h

theorem getLast_jsTrim_not_ws {s : Str} {c : Char}
    (h : (jsTrim s).getLast? = some c) : isJsWs c = false := by
  unfold jsTrim at h
  rw [List.getLast?_reverse] at h
  exact head?_dropWhile_not h

/-! ### Lemmas about `containsSeg` -/

theorem startsWith_iff {x y : Str} : startsWith x y = true ↔ ∃ v, y = x ++ v := by
  induction x generalizing y with
  | nil => simp [startsWith]
  | cons a as ih =>
    cases y with
    | nil => simp [startsWith]
    | cons b bs =>
      simp only [startsWith, Bool.and_eq_true, decide_eq_true_eq, ih, List.cons_append,
        List.cons.injEq]
      constructor
      · rintro ⟨rfl, v, rfl⟩; exact ⟨v, rfl, rfl⟩
      · rintro ⟨v, rfl, rfl⟩; exact ⟨rfl, v, rfl⟩

theorem containsSeg_iff {x y : Str} : containsSeg x y = true ↔ ∃ u v, y = u ++ x ++ v := by
  induction y with
  | nil =>
    simp only [containsSeg, startsWith_iff]
    constructor
    · rintro ⟨v, hv⟩; exact ⟨[], v, by simpa using hv⟩
    · rintro ⟨u, v, huv⟩
      have h0 : u ++ (x ++ v) = [] := by simpa using huv.symm
      rw [List.append_eq_nil] at h0
      exact ⟨v, h0.2.symm⟩
  | cons c t ih =>
    simp only [containsSeg, Bool.or_eq_true, startsWith_iff, ih]
    constructor
    · rintro (⟨v, hv⟩ | ⟨u, v, huv⟩)
      · exact ⟨[], v, by simpa using hv⟩
      · exact ⟨c :: u, v, by simp [huv]⟩
    · rintro ⟨u, v, huv⟩
      cases u with
      | nil => exact Or.inl ⟨v, by simpa using huv⟩
      | cons a as =>
        simp only [List.cons_append, List.cons.injEq] at huv
        exact Or.inr ⟨as, v, huv.2⟩

theorem containsSeg_trans {x y z : Str} (h1 : containsSeg x y = true)
    (h2 : containsSeg y z = true) : containsSeg x z = true := by
  rw [containsSeg_iff] at h1 h2 ⊢
  obtain ⟨u1, v1, rfl⟩ := h1
  obtain ⟨u2, v2, rfl⟩ := h2
  exact ⟨u2 ++ u1, v1 ++ v2, by simp⟩

theorem containsSeg_self (x : Str) : containsSeg x x = true := by
  rw [containsSeg_iff]; exact ⟨[], [], by simp⟩

theorem containsSeg_append_right {x y z : Str} (h : containsSeg x y = true) :
    containsSeg x (z ++ y) = true := by
  rw [containsSeg_iff] at h ⊢
  obtain ⟨u, v, rfl⟩ := h
  exact ⟨z ++ u, v, by simp⟩

theorem containsSeg_append_left {x y z : Str} (h : containsSeg x y = true) :
    containsSeg x (y ++ z) = true := by
  rw [containsSeg_iff] at h ⊢
  obtain ⟨u, v, rfl⟩ := h
  exact ⟨u, v ++ z, by simp⟩

/-- Strip an all-whitespace padding on the left of the haystack when the
needle starts with a non-whitespace character. -/
theorem containsSeg_strip_left {needle p t : Str}
    (hh : ∀ c, needle.head? = some c → isJsWs c = false)
    (hne : needle ≠ [])
    (hp : ∀ d ∈ p, isJsWs d = true)
    (h : containsSeg needle (p ++ t) = true) : containsSeg needle t = true := by
  induction p with
  | nil => simpa using h
  | cons d p' ih =>
    rcases List.exists_cons_of_ne_nil hne with ⟨c, x, rfl⟩
    rw [List.cons_append] at h
    unfold containsSeg at h
    rcases Bool.or_eq_true_iff.1 h with hs | hrest
    · -- startsWith (c :: x) (d :: …) forces c = d, a whitespace: contradiction
      rw [startsWith_iff] at hs
      obtain ⟨v, hv⟩ := hs
      simp only [List.cons_append, List.cons.injEq] at hv
      have hc := hh c (by rfl)
      have hd := hp d (by simp)
      rw [hv.1] at hd
      rw [hc] at hd
      exact absurd hd (by simp)
    · exact ih (fun d hd => hp d (by simp [hd])) hrest

theorem containsSeg_reverse {x y : Str} (h : containsSeg x y = true) :
    containsSeg x.reverse y.reverse = true := by
  rw [containsSeg_iff] at h ⊢
  obtain ⟨u, v, rfl⟩ := h
  exact ⟨v.reverse, u.reverse, by simp⟩

/-- Strip an all-whitespace padding on the right of the haystack when the
needle ends with a non-whitespace character. -/
theorem containsSeg_strip_right {needle t r : Str}
    (hl : ∀ c, needle.getLast? = some c → isJsWs c = false)
    (hne : needle ≠ [])
    (hr : ∀ d ∈ r, isJsWs d = true)
    (h : containsSeg needle (t ++ r) = true) : containsSeg needle t = true := by
  have h2 := containsSeg_reverse h
  rw [List.reverse_append] at h2
  have h3 := @containsSeg_strip_left needle.reverse r.reverse t.reverse
    (fun c hc => by rw [List.head?_reverse] at hc; exact hl c hc)
    (by simpa using hne)
    (fun d hd => hr d (by simpa using hd)) h2
  have h4 := containsSeg_reverse h3
  simpa using h4

/-- A substring occurrence with non-whitespace endpoints survives `jsTrim`. -/
theorem containsSeg_jsTrim {needle s : Str}
    (hne : needle ≠ [])
    (hh : ∀ c, needle.head? = some c → isJsWs c = false)
    (hl : ∀ c, needle.getLast? = some c → isJsWs c = false)
    (h : containsSeg needle s = true) : containsSeg needle (jsTrim s) = true := by
  obtain ⟨p, r, hs, hp, hr⟩ := jsTrim_decomp s
  rw [hs] at h
  have h2 := containsSeg_strip_left hh hne hp h
  rw [show jsTrim s ++ r = jsTrim s ++ r from rfl] at h2
  exact containsSeg_strip_right hl hne hr h2

theorem containsSeg_joinSep_of_mem {sep x : Str} {l : List Str} (hx : x ∈ l) :
    containsSeg x (joinSep sep l) = true := by
  induction l with
  | nil => exact absurd hx (List.not_mem_nil x)
  | cons y ys ih =>
    rcases List.mem_cons.1 hx with rfl | h2
    · cases ys with
      | nil => exact containsSeg_self x
      | cons z zs =>
        show containsSeg x (x ++ sep ++ joinSep sep (z :: zs)) = true
        rw [List.append_assoc]
        exact containsSeg_append_left (containsSeg_self x)
    · cases ys with
      | nil => exact absurd h2 (List.not_mem_nil x)
      | cons z zs =>
        show containsSeg x (y ++ sep ++ joinSep sep (z :: zs)) = true
        exact containsSeg_append_right (ih h2)

/-! ### Token-estimate arithmetic -/

theorem estimateTokens_nonneg (s : Str) : 0 ≤ estimateTokens s := by
  unfold estimateTokens; positivity

theorem estimateTokens_mono {s t : Str} (h : s.length ≤ t.length) :
    estimateTokens s ≤ estimateTokens t := by
  unfold estimateTokens
  have : (s.length + 3) / 4 ≤ (t.length + 3) / 4 := Nat.div_le_div_right (by omega)
  exact_mod_cast this

theorem estimateTokens_append_le (a b : Str) :
    estimateTokens (a ++ b) ≤ estimateTokens a + estimateTokens b := by
  unfold estimateTokens
  have : (a.length + b.length + 3) / 4 ≤ (a.length + 3) / 4 + (b.length + 3) / 4 := by
    omega
  simp only [List.length_append]
  exact_mod_cast this

theorem length_le_four_tokens (s : Str) : (s.length : Int) ≤ 4 * estimateTokens s := by
  unfold estimateTokens
  have : s.length ≤ 4 * ((s.length + 3) / 4) := by omega
  exact_mod_cast this

/-- Token cost charged by the greedy keep-loop. -/
def sumTokCost (l : List Str) : Int :=
  l.foldr (fun x a => estimateTokens (x ++ [ '\n' ]) + a) 0

theorem sumTokCost_nonneg (l : List Str) : 0 ≤ sumTokCost l := by
  induction l with
  | nil => simp [sumTokCost]
  | cons x xs ih =>
    show 0 ≤ estimateTokens (x ++ [ '\n' ]) + sumTokCost xs
    have := estimateTokens_nonneg (x ++ [ '\n' ])
    omega

theorem keepWithinTokens_sum (ls : List Str) (rem : Int) :
    sumTokCost (keepWithinTokens ls rem) ≤ max rem 0 := by
  induction ls generalizing rem with
  | nil => simp [keepWithinTokens, sumTokCost]
  | cons l ls ih =>
    unfold keepWithinTokens
    simp only []
    split
    · simp [sumTokCost]
    · rename_i hcost
      push_neg at hcost
      show estimateTokens (l ++ [ '\n' ]) + sumTokCost (keepWithinTokens ls _) ≤ _
      have h1 := ih (rem - estimateTokens (l ++ [ '\n' ]))
      have h2 := estimateTokens_nonneg (l ++ [ '\n' ])
      omega

theorem estimateTokens_joinNl_le (l : List Str) :
    estimateTokens (joinNl l) ≤ sumTokCost l := by
  induction l with
  | nil =>
    simp [joinNl, joinSep, sumTokCost, estimateTokens]
  | cons x xs ih =>
    cases xs with
    | nil =>
      show estimateTokens x ≤ estimateTokens (x ++ [ '\n' ]) + sumTokCost []
      have h1 : estimateTokens x ≤ estimateTokens (x ++ [ '\n' ]) :=
        estimateTokens_mono (by simp)
      have h2 : sumTokCost ([] : List Str) = 0 := by simp [sumTokCost]
      omega
    | cons y ys =>
      show estimateTokens (x ++ S ("\n") ++ joinNl (y :: ys)) ≤
        estimateTokens (x ++ [ '\n' ]) + sumTokCost (y :: ys)
      have h1 : estimateTokens (x ++ S ("\n") ++ joinNl (y :: ys)) ≤
          estimateTokens (x ++ S ("\n")) + estimateTokens (joinNl (y :: ys)) :=
        estimateTokens_append_le _ _
      have h2 : estimateTokens (x ++ S ("\n")) = estimateTokens (x ++ [ '\n' ]) := rfl
      have h3 := ih
      omega

theorem length_jsTrim_joinNl_le (l : List Str) :
    estimateTokens (jsTrim (joinNl l)) ≤ sumTokCost l :=
  le_trans (estimateTokens_mono (length_jsTrim_le _)) (estimateTokens_joinNl_le l)

/-- Core budget lemma: the trimmed text never exceeds the requested token
budget. -/
theorem trimTextToTokenBudget_tokens_le (t : Str) (B : Int) :
    estimateTokens (trimTextToTokenBudget t B) ≤ max B 0 := by
  unfold trimTextToTokenBudget
  simp only []
  split
  · simp [estimateTokens]
  · rename_i hcond
    push_neg at hcond
    split
    · rename_i hle
      exact le_trans hle (le_max_left _ _)
    · exact le_trans (length_jsTrim_joinNl_le _) (keepWithinTokens_sum _ _)

/-! ### Character-greedy loops -/

theorem length_joinNl_add_one {l : List Str} (h : l ≠ []) :
    (joinNl l).length + 1 = sumCost1 l := by
  induction l with
  | nil => exact absurd rfl h
  | cons x xs ih =>
    cases xs with
    | nil => simp [joinNl, joinSep, sumCost1]
    | cons y ys =>
      have h2 := ih (by simp)
      show (x ++ S ("\n") ++ joinNl (y :: ys)).length + 1 = x.length + 1 + sumCost1 (y :: ys)
      simp only [List.length_append] at h2 ⊢
      simp [S] at h2 ⊢
      omega

theorem keepWithinChars_sum (ls : List Str) (used M : Nat) :
    keepWithinChars ls used M = [] ∨
      used + sumCost1 (keepWithinChars ls used M) ≤ M := by
  induction ls generalizing used with
  | nil => exact Or.inl rfl
  | cons l ls ih =>
    unfold keepWithinChars
    split
    · exact ih used
    · rename_i hfits
      push_neg at hfits
      rcases ih (used + (l.length + 1)) with h0 | h0
      · right
        rw [h0]
        show used + (l.length + 1 + sumCost1 []) ≤ M
        simp [sumCost1]
        omega
      · right
        show used + (l.length + 1 + sumCost1 (keepWithinChars ls (used + (l.length + 1)) M)) ≤ M
        omega

theorem keepWithinChars_join_le (ls : List Str) (M : Nat) :
    (jsTrim (joinNl (keepWithinChars ls 0 M))).length ≤ M := by
  by_cases hne : keepWithinChars ls 0 M = []
  · rw [hne]
    simp [joinNl, joinSep, jsTrim, List.dropWhile]
  · rcases keepWithinChars_sum ls 0 M with h | h
    · exact absurd h hne
    · have h2 := length_joinNl_add_one hne
      have h3 := length_jsTrim_le (joinNl (keepWithinChars ls 0 M))
      omega

/-! ### Bounds on the assembled snapshots -/

/-- The truncator output is within budget except for the fixed marker tail
(`"\n\n" ++` the 65-character marker) appended after the second-stage trim. -/
theorem buildObsidianSafeSnapshot_length_le (raw : Str) (maxChars : Nat) :
    (buildObsidianSafeSnapshot raw maxChars).length ≤ maxChars + 67 := by
  unfold buildObsidianSafeSnapshot
  simp only []
  split
  · simp
  · split
    · rename_i h; omega
    · split
      · rename_i h; omega
      · have h1 := keepWithinChars_join_le
          (splitNl (assembledOf (jsTrim (normalizeNewlines raw)) maxChars)) maxChars
        have h2 : (S ("\n\n")).length = 2 := by decide
        have h3 : truncMarker.length = 65 := by decide
        simp only [List.length_append]
        omega

theorem govStage_eq (g : Str) (B : Int) :
    govStage g B = ([], B) ∨
      (govStage g B =
        ([govHeader ++ trimmedGovOf g],
          B - estimateTokens (govHeader ++ trimmedGovOf g)) ∧ trimmedGovOf g ≠ []) := by
  unfold govStage
  split
  · split
    · rename_i h2; exact Or.inr ⟨rfl, h2⟩
    · exact Or.inl rfl
  · exact Or.inl rfl

theorem trimmedGovOf_tokens_le (g : Str) :
    estimateTokens (trimmedGovOf g) ≤ GOVERNANCE_TOKEN_BUDGET := by
  have h := trimTextToTokenBudget_tokens_le g (min (estimateTokens g) GOVERNANCE_TOKEN_BUDGET)
  have h2 := estimateTokens_nonneg g
  unfold trimmedGovOf
  unfold GOVERNANCE_TOKEN_BUDGET at *
  rcases le_total (estimateTokens g) 1200 with hc | hc <;>
    simp [min_def, hc] at h ⊢ <;> omega

theorem trimmedDailyOf_tokens_le (d : Str) (remaining : Int) :
    estimateTokens (trimmedDailyOf d remaining) ≤ max (dailyBudgetOf remaining) 0 :=
  trimTextToTokenBudget_tokens_le d (dailyBudgetOf remaining)

theorem govHeader_length : govHeader.length = 24 := by decide

theorem dailyHeader_length : dailyHeader.length = 36 := by decide

/-- Character bound for the unified snapshot: total budget (12000) plus the
fixed overhead of the two headers and the separator. -/
theorem buildUnifiedSnapshot_length_le (d g : Str) :
    (buildUnifiedSnapshot d g MAX_SNAPSHOT_TOKENS).length ≤ 12043 := by
  have hg := trimmedGovOf_tokens_le g
  have hgl := length_le_four_tokens (trimmedGovOf g)
  have hgnn := estimateTokens_nonneg (trimmedGovOf g)
  have hsep7 : (S ("\n\n---\n\n")).length = 7 := by decide
  have hgl24 : govHeader.length = 24 := by decide
  have hdl36 : dailyHeader.length = 36 := by decide
  have hC1 : GOVERNANCE_TOKEN_BUDGET = 1200 := rfl
  have hC2 : MAX_SNAPSHOT_TOKENS = 3000 := rfl
  have hC3 : DAILY_TOKEN_BUDGET = 1800 := rfl
  unfold buildUnifiedSnapshot
  simp only []
  rcases govStage_eq g MAX_SNAPSHOT_TOKENS with hcase | ⟨hcase, _⟩ <;> rw [hcase] <;>
    dsimp only <;> simp only [List.singleton_append, List.nil_append]
  · -- no governance part
    split
    · rename_i hd
      have hd2 := trimmedDailyOf_tokens_le d MAX_SNAPSHOT_TOKENS
      have hdnn := estimateTokens_nonneg (trimmedDailyOf d MAX_SNAPSHOT_TOKENS)
      have hdl := length_le_four_tokens (trimmedDailyOf d MAX_SNAPSHOT_TOKENS)
      have hb : max (dailyBudgetOf MAX_SNAPSHOT_TOKENS) 0 ≤ 1800 := by
        unfold dailyBudgetOf DAILY_TOKEN_BUDGET MAX_SNAPSHOT_TOKENS
        omega
      split
      · have h1 := length_jsTrim_le
          (joinSep (S ("\n\n---\n\n")) [dailyHeader ++ trimmedDailyOf d MAX_SNAPSHOT_TOKENS])
        have h2 : (joinSep (S ("\n\n---\n\n"))
            [dailyHeader ++ trimmedDailyOf d MAX_SNAPSHOT_TOKENS]).length
            = dailyHeader.length + (trimmedDailyOf d MAX_SNAPSHOT_TOKENS).length := by
          simp [joinSep]
        simp only [List.nil_append] at h1 h2 ⊢
        omega
      · simp [joinSep, jsTrim, List.dropWhile]
    · simp [joinSep, jsTrim, List.dropWhile]
  · -- governance part present
    split
    · rename_i hd
      -- daily present, remaining > 0
      set rem := MAX_SNAPSHOT_TOKENS - estimateTokens (govHeader ++ trimmedGovOf g) with hrem
      have hremPos : rem > 0 := hd.2
      have hd2 := trimmedDailyOf_tokens_le d rem
      have hdnn := estimateTokens_nonneg (trimmedDailyOf d rem)
      have hdl := length_le_four_tokens (trimmedDailyOf d rem)
      have hdb : max (dailyBudgetOf rem) 0 ≤ rem := by
        unfold dailyBudgetOf
        omega
      have hgpl := length_le_four_tokens (govHeader ++ trimmedGovOf g)
      rw [List.length_append] at hgpl
      split
      · have h1 := length_jsTrim_le (joinSep (S ("\n\n---\n\n"))
          [govHeader ++ trimmedGovOf g, dailyHeader ++ trimmedDailyOf d rem])
        have h2 : (joinSep (S ("\n\n---\n\n"))
            [govHeader ++ trimmedGovOf g, dailyHeader ++ trimmedDailyOf d rem]).length
            = govHeader.length + (trimmedGovOf g).length + (S ("\n\n---\n\n")).length +
              (dailyHeader.length + (trimmedDailyOf d rem).length) := by
          simp [joinSep]
          omega
        have htd : ((trimmedDailyOf d rem).length : Int) ≤ 4 * rem := by omega
        unfold MAX_SNAPSHOT_TOKENS at hrem
        omega
      · have h1 := length_jsTrim_le (joinSep (S ("\n\n---\n\n")) [govHeader ++ trimmedGovOf g])
        have h2 : (joinSep (S ("\n\n---\n\n")) [govHeader ++ trimmedGovOf g]).length
            = govHeader.length + (trimmedGovOf g).length := by simp [joinSep]
        omega
    · have h1 := length_jsTrim_le (joinSep (S ("\n\n---\n\n")) [govHeader ++ trimmedGovOf g])
      have h2 : (joinSep (S ("\n\n---\n\n")) [govHeader ++ trimmedGovOf g]).length
          = govHeader.length + (trimmedGovOf g).length := by simp [joinSep]
      omega

theorem estimateTokens_le_of_length_le {s : Str} {n : Nat} (h : s.length ≤ 4 * n) :
    estimateTokens s ≤ (n : Int) := by
  unfold estimateTokens
  have : (s.length + 3) / 4 ≤ n := by omega
  exact_mod_cast this

/-- Token bound for the unified snapshot: total budget plus the fixed
header/separator overhead (11 tokens). -/
theorem buildUnifiedSnapshot_tokens_le (d g : Str) :
    estimateTokens (buildUnifiedSnapshot d g MAX_SNAPSHOT_TOKENS) ≤
      MAX_SNAPSHOT_TOKENS + 11 := by
  have h := buildUnifiedSnapshot_length_le d g
  have h2 : (buildUnifiedSnapshot d g MAX_SNAPSHOT_TOKENS).length ≤ 4 * 3011 := by omega
  have h3 := estimateTokens_le_of_length_le h2
  have : MAX_SNAPSHOT_TOKENS = 3000 := rfl
  omega

/-! ### The oversized governance document used by the budget counterexample -/

theorem normalizeNewlines_cons_ne {c : Char} {t : Str} (h : c ≠ '\r') :
    normalizeNewlines (c :: t) = c :: normalizeNewlines t := by
  rw [normalizeNewlines.eq_def]
  split
  all_goals rename_i heq
  all_goals first
    | exact absurd heq (List.cons_ne_nil c t)
    | (rw [List.cons.injEq] at heq
       first
         | exact absurd heq.1 h
         | rw [heq.1, heq.2])

theorem normalizeNewlines_eq_self {s : Str} (h : ∀ c ∈ s, c ≠ '\r') :
    normalizeNewlines s = s := by
  induction s with
  | nil => rfl
  | cons c t ih =>
    rw [normalizeNewlines_cons_ne (h c (by simp))]
    rw [ih (fun d hd => h d (by simp [hd]))]

def govC : Str := joinNl (List.replicate 1200 (S ("aaa")))

theorem joinNl_replicate_facts (n : Nat) :
    (joinNl (List.replicate (n + 1) (S ("aaa")))).length = 4 * (n + 1) - 1 ∧
    (joinNl (List.replicate (n + 1) (S ("aaa")))).head? = some 'a' ∧
    (joinNl (List.replicate (n + 1) (S ("aaa")))).getLast? = some 'a' ∧
    (∀ c ∈ joinNl (List.replicate (n + 1) (S ("aaa"))), c = 'a' ∨ c = '\n') := by
  induction n with
  | zero =>
    refine ⟨by decide, by decide, by decide, ?_⟩
    intro c hc
    have : joinNl (List.replicate 1 (S ("aaa"))) = S ("aaa") := by decide
    rw [this] at hc
    simp [S] at hc
    simp [hc]
  | succ n ih =>
    obtain ⟨ihlen, ihhd, ihlast, ihmem⟩ := ih
    have hrep : List.replicate (n + 2) (S ("aaa")) =
        S ("aaa") :: List.replicate (n + 1) (S ("aaa")) := by
      rw [List.replicate_succ]
    have hrep1 : List.replicate (n + 1) (S ("aaa")) =
        S ("aaa") :: List.replicate n (S ("aaa")) := by
      rw [List.replicate_succ]
    have hjoin : joinNl (List.replicate (n + 2) (S ("aaa"))) =
        S ("aaa") ++ S ("\n") ++ joinNl (List.replicate (n + 1) (S ("aaa"))) := by
      rw [hrep]
      conv_lhs => rw [hrep1]
      rfl
    have hne : joinNl (List.replicate (n + 1) (S ("aaa"))) ≠ [] := by
      intro he
      rw [he] at ihlen
      simp at ihlen
      omega
    refine ⟨?_, ?_, ?_, ?_⟩
    · rw [hjoin]
      simp only [List.length_append]
      have : (S ("aaa")).length = 3 := by decide
      have h1 : (S ("\n")).length = 1 := by decide
      omega
    · rw [hjoin]
      rfl
    · rw [hjoin, List.getLast?_append, ihlast]
      rfl
    · intro c hc
      rw [hjoin] at hc
      rcases List.mem_append.1 hc with hc2 | hc2
      · rcases List.mem_append.1 hc2 with hc3 | hc3
        · simp [S] at hc3
          simp [hc3]
        · simp [S] at hc3
          simp [hc3]
      · exact ihmem c hc2

theorem govC_facts :
    govC.length = 4799 ∧ govC.head? = some 'a' ∧ govC.getLast? = some 'a' ∧
      (∀ c ∈ govC, c = 'a' ∨ c = '\n') := by
  have h := joinNl_replicate_facts 1199
  norm_num at h
  exact h

theorem govC_length : govC.length = 4799 := govC_facts.1

theorem govC_tokens : estimateTokens govC = 1200 := by
  unfold estimateTokens
  rw [govC_length]
  rfl

theorem govC_jsTrim : jsTrim govC = govC := by
  apply jsTrim_eq_self
  · intro c hc
    rw [govC_facts.2.1] at hc
    simp at hc
    rw [← hc]
    decide
  · intro c hc
    rw [govC_facts.2.2.1] at hc
    simp at hc
    rw [← hc]
    decide

theorem govC_normalize : normalizeNewlines govC = govC := by
  apply normalizeNewlines_eq_self
  intro c hc
  have := govC_facts.2.2.2 c hc
  rcases this with h | h <;> rw [h] <;> decide

theorem govC_ne_nil : govC ≠ [] := by
  intro h
  have := govC_length
  rw [h] at this
  simp at this

theorem trimmedGovOf_govC : trimmedGovOf govC = govC := by
  unfold trimmedGovOf
  rw [govC_tokens]
  have hmin : min (1200 : Int) GOVERNANCE_TOKEN_BUDGET = 1200 := rfl
  rw [hmin]
  unfold trimTextToTokenBudget
  simp only [govC_normalize, govC_jsTrim]
  rw [if_neg (by
    push_neg
    exact ⟨govC_ne_nil, by norm_num⟩)]
  rw [if_pos (by rw [govC_tokens])]

/-- On the oversized governance document, the unified snapshot is exactly the
governance block (header plus untrimmed 1200-token text). -/
theorem buildUnifiedSnapshot_govC :
    buildUnifiedSnapshot [] govC MAX_SNAPSHOT_TOKENS = govHeader ++ govC := by
  unfold buildUnifiedSnapshot govStage
  rw [if_pos govC_ne_nil]
  rw [trimmedGovOf_govC]
  rw [if_pos govC_ne_nil]
  dsimp only
  rw [if_neg (by simp)]
  show jsTrim (joinSep (S ("\n\n---\n\n")) [govHeader ++ govC]) = govHeader ++ govC
  have hj : joinSep (S ("\n\n---\n\n")) [govHeader ++ govC] = govHeader ++ govC := rfl
  rw [hj]
  apply jsTrim_eq_self
  · intro c hc
    have : (govHeader ++ govC).head? = some '#' := rfl
    rw [this] at hc
    simp at hc
    rw [← hc]
    decide
  · intro c hc
    rw [List.getLast?_append] at hc
    rw [govC_facts.2.2.1] at hc
    simp at hc
    rw [← hc]
    decide

theorem govHeader_govC_tokens : estimateTokens (govHeader ++ govC) = 1206 := by
  unfold estimateTokens
  have : (govHeader ++ govC).length = 4823 := by
    rw [List.length_append, govC_length]
    rfl
  rw [this]
  rfl

/-! ### Membership and ordering facts about `clipFromTailByLine` -/

theorem enumIdx_mem {k i : Nat} {l : Str} {lines : List Str}
    (h : (i, l) ∈ enumIdx k lines) :
    k ≤ i ∧ i - k < lines.length ∧ lines.getD (i - k) [] = l := by
  induction lines generalizing k with
  | nil => simp [enumIdx] at h
  | cons x xs ih =>
    rw [enumIdx] at h
    rcases List.mem_cons.1 h with heq | h2
    · rw [Prod.mk.injEq] at heq
      refine ⟨le_of_eq heq.1.symm, ?_, ?_⟩
      · rw [← heq.1]; simp
      · rw [← heq.1]
        simp [heq.2]
    · obtain ⟨hk, hlt, hget⟩ := ih h2
      refine ⟨by omega, by simp; omega, ?_⟩
      have : i - k = (i - (k + 1)) + 1 := by omega
      rw [this]
      simpa using hget

theorem clipPickDesc_mem {ps : List (Nat × Str)} {used M j : Nat}
    (h : j ∈ clipPickDesc ps used M) : ∃ l, (j, l) ∈ ps := by
  induction ps generalizing used with
  | nil => simp [clipPickDesc] at h
  | cons p ps ih =>
    obtain ⟨i, l⟩ := p
    rw [clipPickDesc] at h
    split at h
    · obtain ⟨l2, hl2⟩ := ih h
      exact ⟨l2, by simp [hl2]⟩
    · rcases List.mem_cons.1 h with rfl | h2
      · exact ⟨l, by simp⟩
      · obtain ⟨l2, hl2⟩ := ih h2
        exact ⟨l2, by simp [hl2]⟩

theorem pickedDescOf_mem {lines : List Str} {M j : Nat}
    (h : j ∈ pickedDescOf lines M) : j < lines.length ∧ lines.getD j [] ∈ lines := by
  obtain ⟨l, hl⟩ := clipPickDesc_mem h
  rw [List.mem_reverse] at hl
  obtain ⟨hk, hlt, hget⟩ := enumIdx_mem hl
  rw [Nat.sub_zero] at hlt hget
  refine ⟨hlt, ?_⟩
  rw [List.getD_eq_getElem lines [] hlt]
  exact List.getElem_mem hlt

theorem dedupPassH_subset {l seen : List Str} {x : Str}
    (h : x ∈ (dedupPassH l seen).1) : x ∈ l := by
  induction l generalizing seen with
  | nil => simp [dedupPassH] at h
  | cons y ys ih =>
    rw [dedupPassH] at h
    split at h
    · exact List.mem_cons.2 (Or.inr (ih h))
    · rcases List.mem_cons.1 h with rfl | h2
      · simp
      · exact List.mem_cons.2 (Or.inr (ih h2))

theorem pushPicked_mem {lines : List Str} {is : List Nat} {seen : List Str} {x : Str}
    (h : x ∈ pushPicked lines is seen) : ∃ i ∈ is, x = lines.getD i [] := by
  induction is generalizing seen with
  | nil => simp [pushPicked] at h
  | cons i is ih =>
    rw [pushPicked] at h
    split at h
    · rcases List.mem_cons.1 h with rfl | h2
      · exact ⟨i, by simp⟩
      · obtain ⟨i2, hi2, hx⟩ := ih h2
        exact ⟨i2, by simp [hi2], hx⟩
    · obtain ⟨i2, hi2, hx⟩ := ih h
      exact ⟨i2, by simp [hi2], hx⟩

/-- Every line of the first-stage excerpt is a verbatim line of the input. -/
theorem clipFromTailByLine_mem {lines : List Str} {M : Nat} {x : Str}
    (h : x ∈ clipFromTailByLine lines M) : x ∈ lines := by
  unfold clipFromTailByLine at h
  split at h
  · simp at h
  · rcases List.mem_append.1 h with h2 | h2
    · have h3 := dedupPassH_subset h2
      have h4 := List.mem_of_mem_filter h3
      exact List.take_subset _ _ h4
    · obtain ⟨i, hi, hx⟩ := pushPicked_mem h2
      rw [List.mem_reverse] at hi
      obtain ⟨hlt, hmem⟩ := pickedDescOf_mem hi
      rw [hx]
      exact hmem

/-- Character cost of a picked index set. -/
def pickCost (lines : List Str) (is : List Nat) : Nat :=
  is.foldr (fun i a => (lines.getD i []).length + 1 + a) 0

theorem clipPickDesc_cost {lines : List Str} (ps : List (Nat × Str)) (used M : Nat)
    (hcons : ∀ i l, (i, l) ∈ ps → lines.getD i [] = l) :
    clipPickDesc ps used M = [] ∨
      used + pickCost lines (clipPickDesc ps used M) ≤ M := by
  induction ps generalizing used with
  | nil => exact Or.inl rfl
  | cons p ps ih =>
    obtain ⟨i, l⟩ := p
    rw [clipPickDesc]
    split
    · exact ih used (fun i2 l2 h2 => hcons i2 l2 (by simp [h2]))
    · rename_i hfits
      push_neg at hfits
      right
      have hget : lines.getD i [] = l := hcons i l (by simp)
      rcases ih (used + (l.length + 1)) (fun i2 l2 h2 => hcons i2 l2 (by simp [h2]))
        with h0 | h0
      · rw [h0]
        show used + ((lines.getD i []).length + 1 + pickCost lines []) ≤ M
        rw [hget]
        show used + (l.length + 1 + 0) ≤ M
        omega
      · show used + ((lines.getD i []).length + 1 +
          pickCost lines (clipPickDesc ps (used + (l.length + 1)) M)) ≤ M
        rw [hget]
        omega

/-- Whole-line cost bound for the backward greedy pick. -/
theorem pickedDescOf_cost (lines : List Str) (M : Nat) :
    pickCost lines (pickedDescOf lines M) ≤ M := by
  have h := @clipPickDesc_cost lines ((enumIdx 0 lines).reverse) 0 M
    (fun i l hl => by
      rw [List.mem_reverse] at hl
      obtain ⟨hk, hlt, hget⟩ := enumIdx_mem hl
      simpa using hget)
  rcases h with h | h
  · unfold pickedDescOf
    rw [h]
    simp [pickCost]
  · unfold pickedDescOf
    omega

theorem enumIdx_fst_lt {k : Nat} {lines : List Str} :
    List.Pairwise (fun p q : Nat × Str => p.1 < q.1) (enumIdx k lines) := by
  induction lines generalizing k with
  | nil => simp [enumIdx]
  | cons x xs ih =>
    rw [enumIdx]
    refine List.pairwise_cons.2 ⟨?_, ih⟩
    intro p hp
    obtain ⟨hk, _, _⟩ := enumIdx_mem hp
    simp
    omega

theorem clipPickDesc_pairwise {ps : List (Nat × Str)} {used M : Nat}
    (h : List.Pairwise (fun p q : Nat × Str => p.1 > q.1) ps) :
    List.Pairwise (· > ·) (clipPickDesc ps used M) := by
  induction ps generalizing used with
  | nil => simp [clipPickDesc]
  | cons p ps ih =>
    obtain ⟨i, l⟩ := p
    rw [List.pairwise_cons] at h
    rw [clipPickDesc]
    split
    · exact ih h.2
    · refine List.pairwise_cons.2 ⟨?_, ih h.2⟩
      intro j hj
      obtain ⟨l2, hl2⟩ := clipPickDesc_mem hj
      exact h.1 (j, l2) hl2

/-- The picked indices are strictly decreasing during the backward scan
(so the ascending excerpt preserves document order). -/
theorem pickedDescOf_sorted (lines : List Str) (M : Nat) :
    List.Pairwise (· > ·) (pickedDescOf lines M) := by
  unfold pickedDescOf
  apply clipPickDesc_pairwise
  rw [List.pairwise_reverse]
  exact enumIdx_fst_lt

/-! ### Deduplication and scanner-shape lemmas -/

theorem mem_dedupSeen {seen l : List Str} {x : Str} :
    x ∈ dedupSeen seen l ↔ x ∈ l ∧ x ∉ seen := by
  induction l generalizing seen with
  | nil => simp [dedupSeen]
  | cons y ys ih =>
    rw [dedupSeen]
    split
    · rename_i hy
      rw [ih]
      constructor
      · rintro ⟨h1, h2⟩; exact ⟨by simp [h1], h2⟩
      · rintro ⟨h1, h2⟩
        rcases List.mem_cons.1 h1 with rfl | h3
        · exact absurd hy h2
        · exact ⟨h3, h2⟩
    · rename_i hy
      constructor
      · intro h
        rcases List.mem_cons.1 h with rfl | h2
        · exact ⟨by simp, hy⟩
        · rw [ih] at h2
          refine ⟨by simp [h2.1], ?_⟩
          intro hc
          exact h2.2 (by simp [hc])
      · rintro ⟨h1, h2⟩
        rcases List.mem_cons.1 h1 with rfl | h3
        · simp
        · by_cases hxy : x = y
          · simp [hxy]
          · refine List.mem_cons.2 (Or.inr ?_)
            rw [ih]
            exact ⟨h3, by simp [hxy, h2]⟩

theorem mem_dedupFirst {l : List Str} {x : Str} : x ∈ dedupFirst l ↔ x ∈ l := by
  unfold dedupFirst
  rw [mem_dedupSeen]
  simp

theorem nodup_dedupSeen (seen l : List Str) : (dedupSeen seen l).Nodup := by
  induction l generalizing seen with
  | nil => simp [dedupSeen]
  | cons y ys ih =>
    rw [dedupSeen]
    split
    · exact ih seen
    · refine List.nodup_cons.2 ⟨?_, ih (y :: seen)⟩
      intro hc
      rw [mem_dedupSeen] at hc
      exact hc.2 (by simp)

theorem nodup_dedupFirst (l : List Str) : (dedupFirst l).Nodup := nodup_dedupSeen [] l

theorem tagChar_not_ws {c : Char} (h : tagChar c = true) : isJsWs c = false := by
  have hn : (65 ≤ c.toNat ∧ c.toNat ≤ 90) ∨ (97 ≤ c.toNat ∧ c.toNat ≤ 122) ∨
      (48 ≤ c.toNat ∧ c.toNat ≤ 57) ∨ c.toNat = 95 ∨ c.toNat = 47 ∨ c.toNat = 45 := by
    simp only [tagChar, Bool.or_eq_true, Bool.and_eq_true, decide_eq_true_eq] at h
    rcases h with ((((⟨h1, h2⟩ | ⟨h1, h2⟩) | ⟨h1, h2⟩) | h1) | h1) | h1
    · exact Or.inl ⟨h1, h2⟩
    · exact Or.inr (Or.inl ⟨h1, h2⟩)
    · exact Or.inr (Or.inr (Or.inl ⟨h1, h2⟩))
    · exact Or.inr (Or.inr (Or.inr (Or.inl (by rw [h1]; rfl))))
    · exact Or.inr (Or.inr (Or.inr (Or.inr (Or.inl (by rw [h1]; rfl)))))
    · exact Or.inr (Or.inr (Or.inr (Or.inr (Or.inr (by rw [h1]; rfl)))))
  by_contra hws
  rw [Bool.not_eq_false] at hws
  have hw : c.toNat = 32 ∨ c.toNat = 9 ∨ c.toNat = 10 ∨ c.toNat = 13 ∨ c.toNat = 11 ∨
      c.toNat = 12 ∨ c.toNat = 160 ∨ c.toNat = 5760 ∨
      (8192 ≤ c.toNat ∧ c.toNat ≤ 8202) ∨ c.toNat = 8232 ∨ c.toNat = 8233 ∨
      c.toNat = 8239 ∨ c.toNat = 8287 ∨ c.toNat = 12288 ∨ c.toNat = 65279 := by
    simp only [isJsWs, Bool.or_eq_true, Bool.and_eq_true, decide_eq_true_eq] at hws
    rcases hws with
      ((((((((((((((h | h) | h) | h) | h) | h) | h) | h) | ⟨h1, h2⟩) | h) | h) | h) | h) | h) | h)
    all_goals first
      | (rw [h]; decide)
      | (have hr1 : 8192 ≤ c.toNat := h1
         have hr2 : c.toNat ≤ 8202 := h2
         omega)
  omega

theorem tagStart_shape {cs tok r : Str} (h : tagStart cs = some (tok, r)) :
    ∃ body, tok = '#' :: body ∧ body ≠ [] ∧ ∀ c ∈ body, tagChar c = true := by
  unfold tagStart at h
  split at h
  · rename_i hcond
    simp only [Option.some.injEq, Prod.mk.injEq] at h
    refine ⟨(cs.drop 1).takeWhile tagChar, h.1.symm, hcond.2, ?_⟩
    intro c hc
    exact mem_takeWhile_ws hc
  · exact absurd h (by simp)

theorem scanTagsF_shape {fuel : Nat} {als : Bool} {s tok : Str}
    (h : tok ∈ scanTagsF fuel als s) :
    ∃ body, tok = '#' :: body ∧ body ≠ [] ∧ ∀ c ∈ body, tagChar c = true := by
  induction fuel generalizing als s with
  | zero => simp [scanTagsF] at h
  | succ fuel ih =>
    cases s with
    | nil => simp [scanTagsF] at h
    | cons c rest =>
      rw [scanTagsF] at h
      split at h
      · cases hts : tagStart (c :: rest) with
        | some p =>
          rw [hts] at h
          rcases List.mem_cons.1 h with rfl | h2
          · exact tagStart_shape hts
          · exact ih h2
        | none => rw [hts] at h; exact ih h
      · split at h
        · cases hts : tagStart rest with
          | some p =>
            rw [hts] at h
            rcases List.mem_cons.1 h with rfl | h2
            · exact tagStart_shape hts
            · exact ih h2
          | none => rw [hts] at h; exact ih h
        · exact ih h

theorem wikiBody_shape {cs tok r : Str} (h : wikiBody cs = some (tok, r)) :
    tok.head? = some '[' ∧ tok.getLast? = some ']' ∧ tok ≠ [] := by
  unfold wikiBody at h
  split at h
  · simp only [Option.some.injEq, Prod.mk.injEq] at h
    rw [← h.1]
    refine ⟨rfl, ?_, by simp⟩
    rw [List.getLast?_append]
    simp
  · exact absurd h (by simp)

theorem tryWiki_shape {cs tok r : Str} (h : tryWiki cs = some (tok, r)) :
    (tok.head? = some '[' ∨ tok.head? = some '!') ∧ tok.getLast? = some ']' ∧ tok ≠ [] := by
  cases cs with
  | nil => simp [tryWiki, wikiBody] at h
  | cons c rest =>
    by_cases hc : c = '!'
    · subst hc
      rw [show tryWiki ('!' :: rest) =
        (wikiBody rest).map (fun p => ('!' :: p.1, p.2)) from rfl] at h
      cases hw : wikiBody rest with
      | none => rw [hw] at h; simp at h
      | some p =>
        rw [hw] at h
        obtain ⟨p1, p2⟩ := p
        simp only [Option.map_some', Option.some.injEq, Prod.mk.injEq] at h
        obtain ⟨hh, hl, hne⟩ := wikiBody_shape hw
        rw [← h.1]
        refine ⟨Or.inr rfl, ?_, by simp⟩
        rcases List.exists_cons_of_ne_nil hne with ⟨d, t, rfl⟩
        rw [List.getLast?_cons_cons]
        exact hl
    · have heq2 : tryWiki (c :: rest) = wikiBody (c :: rest) := by
        unfold tryWiki
        split
        · rename_i heq
          rw [List.cons.injEq] at heq
          exact absurd heq.1 hc
        · rfl
      rw [heq2] at h
      obtain ⟨hh, hl, hne⟩ := wikiBody_shape h
      exact ⟨Or.inl hh, hl, hne⟩

theorem scanWikilinksF_shape {fuel : Nat} {s tok : Str}
    (h : tok ∈ scanWikilinksF fuel s) :
    (tok.head? = some '[' ∨ tok.head? = some '!') ∧ tok.getLast? = some ']' ∧ tok ≠ [] := by
  induction fuel generalizing s with
  | zero => simp [scanWikilinksF] at h
  | succ fuel ih =>
    cases s with
    | nil => simp [scanWikilinksF] at h
    | cons c rest =>
      rw [scanWikilinksF] at h
      cases htw : tryWiki (c :: rest) with
      | some p =>
        rw [htw] at h
        rcases List.mem_cons.1 h with rfl | h2
        · exact tryWiki_shape htw
        · exact ih h2
      | none => rw [htw] at h; exact ih h

/-! ### Structural tokens survive in the assembled (pre-guard) result -/

theorem containsSeg_ne_nil {x y : Str} (hx : x ≠ []) (h : containsSeg x y = true) :
    y ≠ [] := by
  rw [containsSeg_iff] at h
  obtain ⟨u, v, rfl⟩ := h
  intro he
  rw [List.append_assoc, List.append_eq_nil] at he
  rw [List.append_eq_nil] at he
  exact hx he.2.1

theorem getLast?_mem' {l : Str} {c : Char} (h : l.getLast? = some c) : c ∈ l := by
  induction l with
  | nil => simp at h
  | cons d t ih =>
    cases t with
    | nil =>
      simp at h
      simp [h]
    | cons e t2 =>
      rw [List.getLast?_cons_cons] at h
      exact List.mem_cons.2 (Or.inr (ih h))

theorem extractWikilinks_in_assembled {text : Str} {maxChars : Nat} {tok : Str}
    (htok : tok ∈ extractWikilinks text) :
    containsSeg tok (assembledOf text maxChars) = true := by
  obtain ⟨hh, hl, hne⟩ := scanWikilinksF_shape (mem_dedupFirst.1 htok)
  have hlinks : extractWikilinks text ≠ [] := by
    intro he; rw [he] at htok; exact absurd htok (List.not_mem_nil tok)
  have h1 : containsSeg tok (joinSep (S (" ")) (extractWikilinks text)) = true :=
    containsSeg_joinSep_of_mem htok
  have hpne : joinSep (S (" ")) (extractWikilinks text) ≠ [] :=
    containsSeg_ne_nil hne h1
  have hpart : joinSep (S (" ")) (extractWikilinks text) ∈ partsOf text maxChars := by
    simp [partsOf, hlinks]
  have hfil : joinSep (S (" ")) (extractWikilinks text) ∈
      (partsOf text maxChars).filter (fun p => !p.isEmpty) := by
    rw [List.mem_filter]
    refine ⟨hpart, ?_⟩
    simp [hpne]
  have h2 := @containsSeg_joinSep_of_mem (S ("\n\n")) _ _ hfil
  have h3 := containsSeg_trans h1 h2
  unfold assembledOf
  refine containsSeg_jsTrim hne ?_ ?_ h3
  · intro c hc
    rcases hh with hh | hh <;> rw [hh] at hc <;>
      (simp at hc; rw [← hc]; decide)
  · intro c hc
    rw [hl] at hc
    simp at hc
    rw [← hc]
    decide

theorem extractTags_in_assembled {text : Str} {maxChars : Nat} {tok : Str}
    (htok : tok ∈ extractTags text) :
    containsSeg tok (assembledOf text maxChars) = true := by
  obtain ⟨body, htokeq, hbne, hbody⟩ := scanTagsF_shape (mem_dedupFirst.1 htok)
  have hne : tok ≠ [] := by rw [htokeq]; simp
  have htags : extractTags text ≠ [] := by
    intro he; rw [he] at htok; exact absurd htok (List.not_mem_nil tok)
  have h1 : containsSeg tok (joinSep (S (" ")) (extractTags text)) = true :=
    containsSeg_joinSep_of_mem htok
  have hpne : joinSep (S (" ")) (extractTags text) ≠ [] :=
    containsSeg_ne_nil hne h1
  have hpart : joinSep (S (" ")) (extractTags text) ∈ partsOf text maxChars := by
    simp [partsOf, htags]
  have hfil : joinSep (S (" ")) (extractTags text) ∈
      (partsOf text maxChars).filter (fun p => !p.isEmpty) := by
    rw [List.mem_filter]
    refine ⟨hpart, ?_⟩
    simp [hpne]
  have h2 := @containsSeg_joinSep_of_mem (S ("\n\n")) _ _ hfil
  have h3 := containsSeg_trans h1 h2
  unfold assembledOf
  refine containsSeg_jsTrim hne ?_ ?_ h3
  · intro c hc
    rw [htokeq] at hc
    simp at hc
    rw [← hc]
    decide
  · intro c hc
    rw [htokeq] at hc
    rcases List.exists_cons_of_ne_nil hbne with ⟨d, t, hdt⟩
    rw [hdt, List.getLast?_cons_cons] at hc
    have hcm : c ∈ d :: t := getLast?_mem' hc
    have : tagChar c = true := hbody c (by rw [hdt]; exact hcm)
    exact tagChar_not_ws this

theorem buildObsidianSafeSnapshot_eq_assembled {raw : Str} {maxChars : Nat}
    (h1 : maxChars < (jsTrim (normalizeNewlines raw)).length)
    (h2 : (assembledOf (jsTrim (normalizeNewlines raw)) maxChars).length ≤ maxChars) :
    buildObsidianSafeSnapshot raw maxChars =
      assembledOf (jsTrim (normalizeNewlines raw)) maxChars := by
  unfold buildObsidianSafeSnapshot
  rw [if_neg (by
    intro he
    rw [he] at h1
    simp at h1)]
  rw [if_neg (by omega)]
  rw [if_pos h2]

/-! ### State-map lemmas and handler characterization -/

theorem lookupEntry_setEntry_self (d : Str) (e : CacheEntry) (st : BootstrapState) :
    lookupEntry d (setEntry d e st) = some e := by
  induction st with
  | nil => simp [setEntry, lookupEntry]
  | cons p t ih =>
    obtain ⟨k, e0⟩ := p
    rw [setEntry]
    split
    · rw [lookupEntry, if_pos rfl]
    · rw [lookupEntry]
      rename_i hk
      rw [if_neg hk]
      exact ih

theorem lookupEntry_setEntry_ne {d' d : Str} (h : d' ≠ d) (e : CacheEntry)
    (st : BootstrapState) :
    lookupEntry d' (setEntry d e st) = lookupEntry d' st := by
  induction st with
  | nil =>
    rw [setEntry, lookupEntry, lookupEntry, if_neg (fun hc => h hc.symm), lookupEntry]
  | cons p t ih =>
    obtain ⟨k, e0⟩ := p
    rw [setEntry]
    split
    · rename_i hk
      rw [lookupEntry, if_neg (fun hc => h hc.symm), lookupEntry, hk,
        if_neg (fun hc => h hc.symm)]
    · rw [lookupEntry, lookupEntry]
      split
      · rfl
      · exact ih

theorem rebuildFor_rebuilt (today : Str) (state0 : BootstrapState)
    (dayState : Option CacheEntry) (n g now dh gh ch : Str) (lc : Nat) :
    (rebuildFor today state0 dayState n g now dh gh ch lc).rebuilt = true := rfl

theorem rebuildFor_state (today : Str) (state0 : BootstrapState)
    (dayState : Option CacheEntry) (n g now dh gh ch : Str) (lc : Nat) :
    (rebuildFor today state0 dayState n g now dh gh ch lc).state =
      setEntry today (rebuiltEntryOf dayState n g now dh gh ch lc) state0 := rfl

theorem rebuildFor_snapshot (today : Str) (state0 : BootstrapState)
    (dayState : Option CacheEntry) (n g now dh gh ch : Str) (lc : Nat) :
    (rebuildFor today state0 dayState n g now dh gh ch lc).snapshot =
      (rebuiltEntryOf dayState n g now dh gh ch lc).snapshot := by
  unfold rebuildFor
  with_reducible rfl

/-- Cache hit: matching combined hash and a non-empty stored snapshot. -/
theorem handlerCore_hit {hash : Str → Str} {today : Str} {state0 : BootstrapState}
    {daily gov now : Str} {e : CacheEntry}
    (he : lookupEntry today state0 = some e)
    (hc : e.combinedHash = combinedHashOf hash daily gov)
    (hs : e.snapshot ≠ []) :
    handlerCore hash today state0 daily gov now = ⟨e.snapshot, state0, false⟩ := by
  unfold handlerCore
  rw [he]
  dsimp only
  rw [if_pos ⟨hc, hs⟩]

/-- The rebuild flag is cleared exactly when the cache-hit test passes. -/
theorem handlerCore_rebuilt_iff (hash : Str → Str) (today : Str)
    (state0 : BootstrapState) (daily gov now : Str) :
    (handlerCore hash today state0 daily gov now).rebuilt = false ↔
      ∃ e, lookupEntry today state0 = some e ∧
        e.combinedHash = combinedHashOf hash daily gov ∧ e.snapshot ≠ [] := by
  unfold handlerCore
  cases hl : lookupEntry today state0 with
  | none =>
    dsimp only
    rw [rebuildFor_rebuilt]
    simp
  | some e =>
    dsimp only
    split
    · rename_i hcond
      constructor
      · intro _
        exact ⟨e, rfl, hcond.1, hcond.2⟩
      · intro _
        rfl
    · rename_i hcond
      rw [rebuildFor_rebuilt]
      constructor
      · intro h
        exact absurd h (by simp)
      · rintro ⟨e2, he2, hc2, hs2⟩
        rw [Option.some.injEq] at he2
        rw [← he2] at hc2 hs2
        exact absurd ⟨hc2, hs2⟩ hcond

/-- On a rebuild the handler stores, under today's key, the rebuilt entry
carrying the fresh hashes, the rebuilt snapshot and the new line count. -/
theorem handlerCore_rebuild_state (hash : Str → Str) (today : Str)
    (state0 : BootstrapState) (daily gov now : Str)
    (h : (handlerCore hash today state0 daily gov now).rebuilt = true) :
    (handlerCore hash today state0 daily gov now).state =
      setEntry today
        (rebuiltEntryOf (lookupEntry today state0) (normalizeNewlines daily) gov now
          (hash (normalizeNewlines daily)) (hash gov)
          (combinedHashOf hash daily gov) (lineCountOf (normalizeNewlines daily)))
        state0 := by
  unfold handlerCore at h ⊢
  cases hl : lookupEntry today state0 with
  | none =>
    dsimp only
    rfl
  | some e =>
    rw [hl] at h
    dsimp only at h ⊢
    split at h
    · exact absurd h (by simp)
    · rename_i hcond
      rw [if_neg hcond]
      rfl

/-- On a cache hit the state mapping is returned unchanged and the stored
snapshot is returned verbatim. -/
theorem handlerCore_hit_state (hash : Str → Str) (today : Str)
    (state0 : BootstrapState) (daily gov now : Str)
    (h : (handlerCore hash today state0 daily gov now).rebuilt = false) :
    (handlerCore hash today state0 daily gov now).state = state0 ∧
      ∃ e, lookupEntry today state0 = some e ∧
        (handlerCore hash today state0 daily gov now).snapshot = e.snapshot := by
  have h2 := (handlerCore_rebuilt_iff hash today state0 daily gov now).1 h
  obtain ⟨e, he, hc, hs⟩ := h2
  rw [handlerCore_hit he hc hs]
  exact ⟨rfl, e, he, rfl⟩

/-! ### Line split/join inverses -/

theorem splitNl_no_nl {x : Str} (h : '\n' ∉ x) : splitNl x = [x] := by
  induction x with
  | nil => rfl
  | cons c t ih =>
    rw [splitNl]
    rw [if_neg (fun hc => h (by simp [hc]))]
    rw [ih (fun hc => h (by simp [hc]))]

theorem splitNl_append_nl {x : Str} (t : Str) (h : '\n' ∉ x) :
    splitNl (x ++ '\n' :: t) = x :: splitNl t := by
  induction x with
  | nil =>
    show splitNl ('\n' :: t) = [] :: splitNl t
    rw [splitNl, if_pos rfl]
  | cons c x' ih =>
    show splitNl (c :: (x' ++ '\n' :: t)) = (c :: x') :: splitNl t
    rw [splitNl]
    rw [if_neg (fun hc => h (by simp [hc]))]
    rw [ih (fun hc => h (by simp [hc]))]

theorem splitNl_joinNl {L : List Str} (hL : L ≠ []) (h : ∀ l ∈ L, '\n' ∉ l) :
    splitNl (joinNl L) = L := by
  induction L with
  | nil => exact absurd rfl hL
  | cons x xs ih =>
    cases xs with
    | nil => exact splitNl_no_nl (h x (by simp))
    | cons y ys =>
      show splitNl (x ++ S ("\n") ++ joinNl (y :: ys)) = x :: y :: ys
      have hx : '\n' ∉ x := h x (by simp)
      have hstep : x ++ S ("\n") ++ joinNl (y :: ys) = x ++ '\n' :: joinNl (y :: ys) := by
        rw [List.append_assoc]
        rfl
      rw [hstep, splitNl_append_nl _ hx]
      rw [ih (by simp) (fun l hl => h l (by simp [hl]))]

/-! ### `extractCriticalConstraints` capture lemmas -/

theorem jsTrim_ne_nil_of_mem {s : Str} {c : Char} (hc : c ∈ s)
    (hw : isJsWs c = false) : jsTrim s ≠ [] := by
  obtain ⟨p, r, hs, hp, hr⟩ := jsTrim_decomp s
  intro he
  rw [he] at hs
  simp only [List.nil_append] at hs
  rw [hs] at hc
  rcases List.mem_append.1 hc with h2 | h2
  · rw [hp c h2] at hw; exact absurd hw (by simp)
  · rw [hr c h2] at hw; exact absurd hw (by simp)

theorem headingTest_head {line : Str} (h : headingTest line = true) :
    line.head? = some '#' := by
  cases line with
  | nil => simp [headingTest, List.takeWhile] at h
  | cons c t =>
    by_cases hc : c = '#'
    · rw [hc]; rfl
    · unfold headingTest at h
      rw [List.takeWhile_cons, if_neg (by simp [hc])] at h
      simp at h

theorem extractLoop_acc_aux :
    ∀ (ls cc : List Str) (ic : Bool) (acc : List Str),
      ∃ tail, extractLoop ls cc ic acc = acc ++ tail := by
  intro ls
  induction ls with
  | nil =>
    intro cc ic acc
    rw [extractLoop]
    split
    · exact ⟨[jsTrim (joinNl cc)], rfl⟩
    · exact ⟨[], (List.append_nil acc).symm⟩
  | cons line rest ih =>
    intro cc ic acc
    rw [extractLoop]
    split
    · split
      · obtain ⟨t, ht⟩ := ih [line] (keywordsIn (line.map asciiLower))
          (acc ++ [jsTrim (joinNl cc)])
        exact ⟨[jsTrim (joinNl cc)] ++ t, by rw [ht, List.append_assoc]⟩
      · exact ih _ _ _
    · split
      · exact ih _ _ _
      · split
        · exact ih _ _ _
        · exact ih _ _ _

theorem extractLoop_body_pass {body : List Str}
    (hb : ∀ l ∈ body, headingTest l = false) :
    ∀ (tl cc acc : List Str),
      extractLoop (body ++ tl) cc true acc = extractLoop tl (cc ++ body) true acc := by
  induction body with
  | nil => intro tl cc acc; simp
  | cons l b ih =>
    intro tl cc acc
    have hl : headingTest l = false := hb l (by simp)
    show extractLoop (l :: (b ++ tl)) cc true acc = _
    rw [extractLoop]
    rw [if_neg (by simp [hl])]
    rw [if_neg (by simp)]
    rw [if_pos rfl]
    rw [ih (fun l2 hl2 => hb l2 (by simp [hl2]))]
    congr 1
    simp

/-- A keyword-matching heading opens a section that is captured in full up to
the next heading (of any level): the flushed content appears first in the
accumulated section list. -/
theorem section_in_extractLoop {hline h2 : Str} {body rest : List Str}
    (hhead : headingTest hline = true)
    (hkw : keywordsIn (hline.map asciiLower) = true)
    (hb : ∀ l ∈ body, headingTest l = false)
    (hh2 : headingTest h2 = true) :
    ∃ tail, extractLoop (hline :: (body ++ h2 :: rest)) [] false [] =
      jsTrim (joinNl (hline :: body)) :: tail := by
  have s1 : extractLoop (hline :: (body ++ h2 :: rest)) [] false [] =
      extractLoop (body ++ h2 :: rest) [hline] true [] := by
    rw [extractLoop]
    rw [if_pos hhead]
    rw [if_neg (by simp)]
    rw [hkw]
  rw [s1, extractLoop_body_pass hb]
  have s2 : extractLoop (h2 :: rest) ([hline] ++ body) true [] =
      extractLoop rest [h2] (keywordsIn (h2.map asciiLower))
        [jsTrim (joinNl (hline :: body))] := by
    rw [extractLoop]
    rw [if_pos hh2]
    rw [if_pos (by simp)]
    rfl
  rw [s2]
  obtain ⟨t, ht⟩ := extractLoop_acc_aux rest [h2] (keywordsIn (h2.map asciiLower))
    [jsTrim (joinNl (hline :: body))]
  exact ⟨t, by rw [ht]; rfl⟩

theorem isStrongLine_trim_ne_nil {l : Str} (h : isStrongLine l = true) :
    jsTrim l ≠ [] := by
  unfold isStrongLine at h
  rw [Bool.and_eq_true] at h
  cases hjt : jsTrim l with
  | nil => rw [hjt] at h; simp at h
  | cons c r => simp

theorem extractCriticalConstraints_strong {text l : Str}
    (hl : l ∈ splitNl text) (hs : isStrongLine l = true) :
    containsSeg (jsTrim l) (extractCriticalConstraints text) = true ∧
      containsSeg (S ("## Absolute Constraints")) (extractCriticalConstraints text) = true := by
  by_cases htext : text = []
  · subst htext
    have : l = [] := by simpa [splitNl] using hl
    rw [this] at hs
    exact absurd hs (by decide)
  · unfold extractCriticalConstraints
    rw [if_neg htext]
    have hmem : jsTrim l ∈ dedupFirst (strongConstraintsOf (splitNl text)) := by
      rw [mem_dedupFirst]
      unfold strongConstraintsOf
      exact List.mem_map_of_mem _ (List.mem_filter.2 ⟨hl, hs⟩)
    have hne : dedupFirst (strongConstraintsOf (splitNl text)) ≠ [] := by
      intro he; rw [he] at hmem; exact absurd hmem (List.not_mem_nil _)
    rw [if_pos hne]
    constructor
    · have hp : jsTrim l ∈ extractLoop (splitNl text) [] false [] ++
          (S ("## Absolute Constraints") :: dedupFirst (strongConstraintsOf (splitNl text))) :=
        List.mem_append.2 (Or.inr (List.mem_cons.2 (Or.inr hmem)))
      have h1 := @containsSeg_joinSep_of_mem (S ("\n\n")) _ _ hp
      exact containsSeg_jsTrim (isStrongLine_trim_ne_nil hs)
        (fun c hc => head_jsTrim_not_ws hc) (fun c hc => getLast_jsTrim_not_ws hc) h1
    · have hp : S ("## Absolute Constraints") ∈ extractLoop (splitNl text) [] false [] ++
          (S ("## Absolute Constraints") :: dedupFirst (strongConstraintsOf (splitNl text))) :=
        List.mem_append.2 (Or.inr (List.mem_cons.2 (Or.inl rfl)))
      have h1 := @containsSeg_joinSep_of_mem (S ("\n\n")) _ _ hp
      exact containsSeg_jsTrim (by decide)
        (by intro c hc; simp [S] at hc; rw [← hc]; decide)
        (by intro c hc; simp [S] at hc; rw [← hc]; decide) h1

/-- The full-section capture surfaces in the final output: for a document of
the form `hline / body / h2 / rest` with a keyword heading `hline`, no
headings in `body` and any next heading `h2`, the whole trimmed section
`hline + body` is a segment of the constraint extraction. -/
theorem extractCriticalConstraints_section {hline h2 : Str} {body rest : List Str}
    (hhead : headingTest hline = true)
    (hkw : keywordsIn (hline.map asciiLower) = true)
    (hb : ∀ l ∈ body, headingTest l = false)
    (hh2 : headingTest h2 = true)
    (hnl : ∀ l ∈ hline :: (body ++ h2 :: rest), '\n' ∉ l) :
    containsSeg (jsTrim (joinNl (hline :: body)))
      (extractCriticalConstraints (joinNl (hline :: (body ++ h2 :: rest)))) = true := by
  have hsplit : splitNl (joinNl (hline :: (body ++ h2 :: rest))) =
      hline :: (body ++ h2 :: rest) := splitNl_joinNl (by simp) hnl
  have hnenil : joinNl (hline :: (body ++ h2 :: rest)) ≠ [] := by
    intro he
    have h0 := hsplit
    rw [he] at h0
    simp [splitNl] at h0
  unfold extractCriticalConstraints
  rw [if_neg hnenil, hsplit]
  obtain ⟨tail, htail⟩ := section_in_extractLoop hhead hkw hb hh2
  have hp : jsTrim (joinNl (hline :: body)) ∈
      extractLoop (hline :: (body ++ h2 :: rest)) [] false [] ++
        (if dedupFirst (strongConstraintsOf (hline :: (body ++ h2 :: rest))) ≠ [] then
          S ("## Absolute Constraints") ::
            dedupFirst (strongConstraintsOf (hline :: (body ++ h2 :: rest)))
        else []) := by
    rw [htail]
    exact List.mem_append.2 (Or.inl (List.mem_cons.2 (Or.inl rfl)))
  have h1 := @containsSeg_joinSep_of_mem (S ("\n\n")) _ _ hp
  have hcne : jsTrim (joinNl (hline :: body)) ≠ [] := by
    apply @jsTrim_ne_nil_of_mem _ '#'
    · have hh := headingTest_head hhead
      cases hline with
      | nil => simp at hh
      | cons c t =>
        simp at hh
        cases body with
        | nil =>
          show '#' ∈ joinNl [c :: t]
          rw [← hh]
          simp [joinNl, joinSep]
        | cons b bs =>
          show '#' ∈ (c :: t) ++ S ("\n") ++ joinNl (b :: bs)
          rw [← hh]
          simp
    · decide
  exact containsSeg_jsTrim hcne
    (fun c hc => head_jsTrim_not_ws hc) (fun c hc => getLast_jsTrim_not_ws hc) h1

/-! ### Emptiness lemmas for the extractors -/

theorem wikiBody_none_of_no_bb {cs : Str}
    (h : containsSeg (S ("[[")) cs = false) : wikiBody cs = none := by
  unfold wikiBody
  rw [if_neg]
  rintro ⟨h1, _, _⟩
  have hsw : startsWith (S ("[[")) cs = true := by
    rw [startsWith_iff]
    refine ⟨cs.drop 2, ?_⟩
    conv_lhs => rw [← List.take_append_drop 2 cs]
    rw [h1]
    rfl
  cases cs with
  | nil => simp [List.take] at h1
  | cons c t =>
    unfold containsSeg at h
    rw [hsw] at h
    simp at h

theorem containsSeg_cons_false {x : Str} {c : Char} {t : Str}
    (h : containsSeg x (c :: t) = false) : containsSeg x t = false := by
  unfold containsSeg at h
  rcases Bool.or_eq_false_iff.1 h with ⟨_, h2⟩
  exact h2

theorem scanWikilinksF_nil {fuel : Nat} {s : Str}
    (h : containsSeg (S ("[[")) s = false) : scanWikilinksF fuel s = [] := by
  induction fuel generalizing s with
  | zero => cases s <;> rfl
  | succ fuel ih =>
    cases s with
    | nil => rfl
    | cons c rest =>
      have hrest : containsSeg (S ("[[")) rest = false := containsSeg_cons_false h
      have htw : tryWiki (c :: rest) = none := by
        unfold tryWiki
        split
        · rename_i heq
          rw [List.cons.injEq] at heq
          rw [wikiBody_none_of_no_bb (by rw [← heq.2]; exact hrest)]
          rfl
        · exact wikiBody_none_of_no_bb h
      rw [scanWikilinksF, htw]
      exact ih hrest

theorem tagStart_none_of_no_hash {cs : Str} (h : '#' ∉ cs) : tagStart cs = none := by
  unfold tagStart
  rw [if_neg]
  rintro ⟨h1, _⟩
  cases cs with
  | nil => simp [List.take] at h1
  | cons c t =>
    simp [List.take] at h1
    exact h (by rw [h1]; simp)

theorem scanTagsF_nil {fuel : Nat} {als : Bool} {s : Str}
    (h : '#' ∉ s) : scanTagsF fuel als s = [] := by
  induction fuel generalizing als s with
  | zero => cases s <;> rfl
  | succ fuel ih =>
    cases s with
    | nil => rfl
    | cons c rest =>
      have hrest : '#' ∉ rest := fun hc => h (by simp [hc])
      rw [scanTagsF]
      split
      · rename_i hcond
        rw [Bool.and_eq_true] at hcond
        have : c = '#' := by simpa using hcond.2
        exact absurd (by simp [this]) h
      · split
        · rw [tagStart_none_of_no_hash hrest]
          exact ih hrest
        · exact ih hrest

theorem hasPctPct_cons_ne {c : Char} {t : Str} (h : c ≠ '%') :
    hasPctPct (c :: t) = hasPctPct t := by
  rw [hasPctPct.eq_def]
  split
  all_goals rename_i heq
  · rw [List.cons.injEq] at heq
    exact absurd heq.1 h
  · rw [List.cons.injEq] at heq
    rw [heq.2]
  · exact absurd heq (List.cons_ne_nil c t)

theorem hasPctPct_eq_false {l : Str} (h : '%' ∉ l) : hasPctPct l = false := by
  induction l with
  | nil => rfl
  | cons c t ih =>
    rw [hasPctPct_cons_ne (fun hc => h (by simp [hc]))]
    exact ih (fun hc => h (by simp [hc]))

/-- Straddle-free append for a two-character needle. -/
theorem containsSeg_pair_append {c1 c2 : Char} {a b : Str}
    (ha : containsSeg [c1, c2] a = false)
    (hb : containsSeg [c1, c2] b = false)
    (hab : ¬(a.getLast? = some c1 ∧ b.head? = some c2)) :
    containsSeg [c1, c2] (a ++ b) = false := by
  induction a with
  | nil => simpa using hb
  | cons d a' ih =>
    unfold containsSeg at ha
    rcases Bool.or_eq_false_iff.1 ha with ⟨ha1, ha2⟩
    rw [List.cons_append]
    unfold containsSeg
    rw [Bool.or_eq_false_iff]
    constructor
    · cases a' with
      | nil =>
        -- a = [d]: a match here would straddle
        rw [Bool.eq_false_iff]
        intro hsw
        rw [startsWith_iff] at hsw
        obtain ⟨v, hv⟩ := hsw
        simp only [List.nil_append, List.cons_append, List.cons.injEq] at hv
        apply hab
        constructor
        · rw [hv.1]; rfl
        · have hbv : b = c2 :: v := hv.2
          rw [hbv]; rfl
      | cons e a'' =>
        show startsWith [c1, c2] (d :: e :: (a'' ++ b)) = false
        have h1 : startsWith [c1, c2] (d :: e :: a'') = false := ha1
        simp only [startsWith] at h1 ⊢
        exact h1
    · apply ih ha2
      intro hc
      apply hab
      refine ⟨?_, hc.2⟩
      cases a' with
      | nil => simp at hc
      | cons e a'' =>
        rw [List.getLast?_cons_cons]
        exact hc.1

theorem containsSeg_pair_replicate {c1 c2 d : Char} (h : d ≠ c1) (n : Nat) :
    containsSeg [c1, c2] (List.replicate n d) = false := by
  induction n with
  | zero => rfl
  | succ n ih =>
    rw [List.replicate_succ]
    unfold containsSeg
    rw [Bool.or_eq_false_iff]
    refine ⟨?_, ih⟩
    show ((c1 = d : Bool) && _) = false
    have : (c1 = d : Bool) = false := by
      simp
      exact fun hc => h hc.symm
    rw [this]
    rfl

/-! ### A 12000-budget overflow input for the truncator

Two oversized task lines: the first stage picks only the second line, the
tasks section reproduces both, the assembled result exceeds the budget, the
final guard fills 11993 of the 12000 characters, and the appended marker
pushes the output to 12059 characters. -/

def taskBody (n : Nat) : Str := S ("- [ ] ") ++ List.replicate n 'o'

def cxLine1 : Str := taskBody 7893

def cxLine2 : Str := taskBody 5968

def cxRaw : Str := cxLine1 ++ '\n' :: cxLine2

theorem length_taskBody (n : Nat) : (taskBody n).length = 6 + n := by
  unfold taskBody
  rw [List.length_append, List.length_replicate]
  rfl

theorem mem_taskBody {c : Char} {n : Nat} (h : c ∈ taskBody n) :
    c ∈ S ("- [ ] ") ∨ c = 'o' := by
  unfold taskBody at h
  rcases List.mem_append.1 h with h2 | h2
  · exact Or.inl h2
  · exact Or.inr (List.eq_of_mem_replicate h2)

theorem taskBody_no {c : Char} {n : Nat} (hc : c ∈ taskBody n) :
    c = '-' ∨ c = ' ' ∨ c = '[' ∨ c = ']' ∨ c = 'o' := by
  rcases mem_taskBody hc with h | h
  · simp [S] at h
    rcases h with h | h | h | h | h | h <;> simp [h]
  · simp [h]

theorem getLast?_replicate_succ (d : Char) (n : Nat) :
    (List.replicate (n + 1) d).getLast? = some d := by
  induction n with
  | zero => rfl
  | succ n ih =>
    rw [List.replicate_succ]
    rw [show List.replicate (n + 1) d = d :: List.replicate n d from List.replicate_succ d n]
    rw [List.getLast?_cons_cons]
    rw [← List.replicate_succ]
    exact ih

theorem getLast?_append_ne {a b : Str} (hb : b ≠ []) :
    (a ++ b).getLast? = b.getLast? := by
  rw [List.getLast?_append]
  cases hb2 : b.getLast? with
  | none =>
    rcases List.exists_cons_of_ne_nil hb with ⟨c, t, rfl⟩
    rw [List.getLast?_eq_getLast _ (by simp)] at hb2
    simp at hb2
  | some c => rfl

theorem getLast?_taskBody (n : Nat) :
    (taskBody (n + 1)).getLast? = some 'o' := by
  unfold taskBody
  rw [getLast?_append_ne (by simp)]
  exact getLast?_replicate_succ 'o' n

theorem cxLine1_length : cxLine1.length = 7899 := by
  unfold cxLine1; rw [length_taskBody]

theorem cxLine2_length : cxLine2.length = 5974 := by
  unfold cxLine2; rw [length_taskBody]

theorem cxLine1_getLast : cxLine1.getLast? = some 'o' := getLast?_taskBody 7892

theorem cxLine2_getLast : cxLine2.getLast? = some 'o' := getLast?_taskBody 5967

theorem taskBody_no_nl (n : Nat) : '\n' ∉ taskBody n := by
  intro h
  rcases taskBody_no h with h | h | h | h | h <;> simp at h

theorem cxRaw_facts : normalizeNewlines cxRaw = cxRaw ∧ jsTrim cxRaw = cxRaw := by
  constructor
  · apply normalizeNewlines_eq_self
    intro c hc
    unfold cxRaw at hc
    rcases List.mem_append.1 hc with h | h
    · rcases taskBody_no h with h | h | h | h | h <;> simp [h]
    · rcases List.mem_cons.1 h with rfl | h
      · simp
      · rcases taskBody_no h with h | h | h | h | h <;> simp [h]
  · apply jsTrim_eq_self
    · intro c hc
      have : cxRaw.head? = some '-' := rfl
      rw [this] at hc
      simp at hc
      rw [← hc]
      decide
    · intro c hc
      have hne : cxLine2 ≠ [] := by
        intro h0
        have h1 := cxLine2_length
        rw [h0] at h1
        simp at h1
      have hre : cxRaw = (cxLine1 ++ ['\n']) ++ cxLine2 := by
        unfold cxRaw
        rw [List.append_assoc]
        rfl
      rw [hre, getLast?_append_ne hne, cxLine2_getLast] at hc
      simp at hc
      rw [← hc]
      decide

theorem cxLine1_no_nl : '\n' ∉ cxLine1 := taskBody_no_nl 7893

theorem cxLine2_no_nl : '\n' ∉ cxLine2 := taskBody_no_nl 5968

theorem cxRaw_split : splitNl cxRaw = [cxLine1, cxLine2] := by
  unfold cxRaw
  rw [splitNl_append_nl _ cxLine1_no_nl]
  rw [splitNl_no_nl cxLine2_no_nl]

theorem isTaskLine_taskBody (n : Nat) : isTaskLine (taskBody n) = true := rfl

theorem isHeadingLine_taskBody (n : Nat) : isHeadingLine (taskBody n) = false := rfl

theorem cx_tasks : extractTaskLines [cxLine1, cxLine2] = [cxLine1, cxLine2] := by
  unfold extractTaskLines cxLine1 cxLine2
  rw [List.filter_cons_of_pos (isTaskLine_taskBody 7893)]
  rw [List.filter_cons_of_pos (isTaskLine_taskBody 5968)]
  rfl

theorem containsSeg_bb_taskBody (n : Nat) :
    containsSeg [ '[', '[' ] (taskBody n) = false := by
  unfold taskBody
  apply containsSeg_pair_append
  · decide
  · exact containsSeg_pair_replicate (by decide) n
  · rintro ⟨h1, _⟩
    have : (S ("- [ ] ")).getLast? = some ' ' := rfl
    rw [this] at h1
    simp at h1

theorem cx_no_bb : containsSeg (S ("[[")) cxRaw = false := by
  show containsSeg [ '[', '[' ] cxRaw = false
  unfold cxRaw
  apply containsSeg_pair_append
  · exact containsSeg_bb_taskBody 7893
  · unfold containsSeg
    rw [Bool.or_eq_false_iff]
    exact ⟨by decide, containsSeg_bb_taskBody 5968⟩
  · rintro ⟨h1, _⟩
    rw [cxLine1_getLast] at h1
    simp at h1

theorem cx_no_hash : '#' ∉ cxRaw := by
  intro h
  unfold cxRaw at h
  rcases List.mem_append.1 h with h | h
  · rcases taskBody_no h with h | h | h | h | h <;> simp at h
  · rcases List.mem_cons.1 h with h | h
    · simp at h
    · rcases taskBody_no h with h | h | h | h | h <;> simp at h

theorem cx_no_pct (n : Nat) : '%' ∉ taskBody n := by
  intro h
  rcases taskBody_no h with h | h | h | h | h <;> simp at h

theorem cx_links : extractWikilinks cxRaw = [] := by
  unfold extractWikilinks scanWikilinks
  rw [scanWikilinksF_nil cx_no_bb]
  rfl

theorem cx_tags : extractTags cxRaw = [] := by
  unfold extractTags
  rw [scanTagsF_nil cx_no_hash]
  rfl

theorem cxLine1_no_pct : '%' ∉ cxLine1 := cx_no_pct 7893

theorem cxLine2_no_pct : '%' ∉ cxLine2 := cx_no_pct 5968

theorem cx_comments : extractCommentLines [cxLine1, cxLine2] false = [] := by
  rw [extractCommentLines]
  rw [if_neg (by rw [hasPctPct_eq_false cxLine1_no_pct]; decide)]
  rw [if_neg (by decide)]
  rw [extractCommentLines]
  rw [if_neg (by rw [hasPctPct_eq_false cxLine2_no_pct]; decide)]
  rw [if_neg (by decide)]
  rfl

theorem clipPickDesc_cons (i : Nat) (l : Str) (rest : List (Nat × Str)) (used M : Nat) :
    clipPickDesc ((i, l) :: rest) used M =
      if used + (l.length + 1) > M then clipPickDesc rest used M
      else i :: clipPickDesc rest (used + (l.length + 1)) M := rfl

theorem cx_picked : pickedDescOf [cxLine1, cxLine2] (clipBudget 12000) = [1] := by
  have hb : clipBudget 12000 = 7800 := rfl
  unfold pickedDescOf
  rw [hb]
  have he : ((enumIdx 0 [cxLine1, cxLine2]).reverse : List (Nat × Str)) =
      [(1, cxLine2), (0, cxLine1)] := rfl
  rw [he]
  rw [clipPickDesc_cons, cxLine2_length]
  rw [if_neg (by norm_num)]
  rw [clipPickDesc_cons, cxLine1_length]
  rw [if_pos (by norm_num)]
  rfl

theorem cx_clip : clipFromTailByLine [cxLine1, cxLine2] (clipBudget 12000) = [cxLine2] := by
  unfold clipFromTailByLine
  rw [cx_picked]
  rw [if_neg (by simp)]
  have hctx : headingCtxOf [cxLine1, cxLine2] (clipBudget 12000) = [] := by
    unfold headingCtxOf
    rw [cx_picked]
    show ([cxLine1, cxLine2].take 2).filter isHeadingLine = []
    show [cxLine1, cxLine2].filter isHeadingLine = []
    unfold cxLine1 cxLine2
    rw [List.filter_cons_of_neg (by rw [isHeadingLine_taskBody]; decide)]
    rw [List.filter_cons_of_neg (by rw [isHeadingLine_taskBody]; decide)]
    rfl
  rw [hctx]
  show (dedupPassH [] []).1 ++ pushPicked [cxLine1, cxLine2] [1] (dedupPassH [] []).2 = [cxLine2]
  rw [show dedupPassH ([] : List Str) [] = ([], []) from rfl]
  show pushPicked [cxLine1, cxLine2] [1] [] = [cxLine2]
  have h1 : pushPicked [cxLine1, cxLine2] [1] [] =
      if cxLine2 = [] ∨ cxLine2 ∉ ([] : List Str) then
        cxLine2 :: pushPicked [cxLine1, cxLine2] [] [cxLine2]
      else pushPicked [cxLine1, cxLine2] [] [] := rfl
  rw [h1, if_pos (Or.inr (List.not_mem_nil _))]
  rfl

theorem cxRaw_length : cxRaw.length = 13874 := by
  unfold cxRaw
  rw [List.length_append, List.length_cons, cxLine1_length, cxLine2_length]

theorem cxRaw_ne_nil : cxRaw ≠ [] := by
  intro h
  have h1 := cxRaw_length
  rw [h] at h1
  simp at h1

theorem cxRaw_getLast : cxRaw.getLast? = some 'o' := by
  have hne : cxLine2 ≠ [] := by
    intro h0
    have h1 := cxLine2_length
    rw [h0] at h1
    simp at h1
  have hre : cxRaw = (cxLine1 ++ ['\n']) ++ cxLine2 := by
    unfold cxRaw
    rw [List.append_assoc]
    rfl
  rw [hre, getLast?_append_ne hne]
  exact cxLine2_getLast

theorem jsTrim_cxLine2 : jsTrim cxLine2 = cxLine2 := by
  apply jsTrim_eq_self
  · intro c hc
    have hh : cxLine2.head? = some '-' := rfl
    rw [hh] at hc
    simp at hc
    rw [← hc]
    decide
  · intro c hc
    rw [cxLine2_getLast] at hc
    simp at hc
    rw [← hc]
    decide

theorem joinNl_cons2 (x y : Str) (xs : List Str) :
    joinNl (x :: y :: xs) = x ++ '\n' :: joinNl (y :: xs) := by
  have h : joinNl (x :: y :: xs) = (x ++ S ("\n")) ++ joinNl (y :: xs) := rfl
  rw [h, List.append_assoc]
  rfl

theorem joinSep2_cons2 (x y : Str) (xs : List Str) :
    joinSep (S ("\n\n")) (x :: y :: xs) =
      x ++ '\n' :: '\n' :: joinSep (S ("\n\n")) (y :: xs) := by
  have h : joinSep (S ("\n\n")) (x :: y :: xs) =
      (x ++ S ("\n\n")) ++ joinSep (S ("\n\n")) (y :: xs) := rfl
  rw [h, List.append_assoc]
  rfl

theorem cx_joinNl_pair : joinNl [cxLine1, cxLine2] = cxRaw := by
  rw [joinNl_cons2]
  rfl

theorem cx_parts : partsOf cxRaw 12000 =
    [S ("## Recent Snapshot"), cxLine2, S ("## Tasks (Preserved)"), cxRaw] := by
  unfold partsOf
  rw [cxRaw_split, cx_clip, cx_tasks, cx_links, cx_tags, cx_comments]
  rw [if_pos (by simp)]
  rw [if_neg (by simp)]
  rw [if_neg (by simp)]
  rw [if_neg (by simp)]
  have hj : jsTrim (joinNl [cxLine2]) = cxLine2 := jsTrim_cxLine2
  rw [hj, cx_joinNl_pair]
  rfl

/-- The assembled over-budget result for the two-long-task-line input, in
cons-normal form. -/
def cxAssembled : Str :=
  S ("## Recent Snapshot") ++ '\n' :: '\n' ::
    (cxLine2 ++ '\n' :: '\n' ::
      (S ("## Tasks (Preserved)") ++ '\n' :: '\n' :: cxRaw))

theorem cx_assembled_join :
    joinSep (S ("\n\n"))
      [S ("## Recent Snapshot"), cxLine2, S ("## Tasks (Preserved)"), cxRaw] =
    cxAssembled := by
  rw [joinSep2_cons2, joinSep2_cons2, joinSep2_cons2]
  rfl

theorem getLast?_cons2 {a b : Char} {t : Str} (ht : t ≠ []) :
    (a :: b :: t).getLast? = t.getLast? := by
  show (([a, b] : Str) ++ t).getLast? = t.getLast?
  exact getLast?_append_ne ht

theorem cxAssembled_getLast : cxAssembled.getLast? = some 'o' := by
  unfold cxAssembled
  rw [getLast?_append_ne (by simp)]
  rw [getLast?_cons2 (by simp)]
  rw [getLast?_append_ne (by simp)]
  rw [getLast?_cons2 (by simp [cxRaw_ne_nil])]
  rw [getLast?_append_ne (by simp)]
  rw [getLast?_cons2 cxRaw_ne_nil]
  exact cxRaw_getLast

theorem jsTrim_cxAssembled : jsTrim cxAssembled = cxAssembled := by
  apply jsTrim_eq_self
  · intro c hc
    have hh : cxAssembled.head? = some '#' := rfl
    rw [hh] at hc
    simp at hc
    rw [← hc]
    decide
  · intro c hc
    rw [cxAssembled_getLast] at hc
    simp at hc
    rw [← hc]
    decide

theorem cx_assembled_eq : assembledOf cxRaw 12000 = cxAssembled := by
  unfold assembledOf
  rw [cx_parts]
  rw [show ([S ("## Recent Snapshot"), cxLine2, S ("## Tasks (Preserved)"), cxRaw].filter
        (fun p => !p.isEmpty)) =
      [S ("## Recent Snapshot"), cxLine2, S ("## Tasks (Preserved)"), cxRaw] from rfl]
  rw [cx_assembled_join]
  exact jsTrim_cxAssembled

theorem cxAssembled_length : cxAssembled.length = 19892 := by
  have h1 : (S ("## Recent Snapshot")).length = 18 := by decide
  have h2 : (S ("## Tasks (Preserved)")).length = 20 := by decide
  unfold cxAssembled
  simp only [List.length_append, List.length_cons]
  rw [h1, h2, cxLine2_length, cxRaw_length]

theorem splitNl_cons_nl (t : Str) : splitNl ('\n' :: t) = [] :: splitNl t := by
  rw [splitNl]
  rw [if_pos rfl]

theorem cxAssembled_split : splitNl cxAssembled =
    [S ("## Recent Snapshot"), [], cxLine2, [], S ("## Tasks (Preserved)"), [],
     cxLine1, cxLine2] := by
  unfold cxAssembled
  rw [splitNl_append_nl _ (by decide)]
  rw [splitNl_cons_nl]
  rw [splitNl_append_nl _ cxLine2_no_nl]
  rw [splitNl_cons_nl]
  rw [splitNl_append_nl _ (by decide)]
  rw [splitNl_cons_nl]
  rw [cxRaw_split]

theorem keepWithinChars_cons (l : Str) (ls : List Str) (used M : Nat) :
    keepWithinChars (l :: ls) used M =
      if used + (l.length + 1) > M then keepWithinChars ls used M
      else l :: keepWithinChars ls (used + (l.length + 1)) M := rfl

theorem cx_kept :
    keepWithinChars
      [S ("## Recent Snapshot"), [], cxLine2, [], S ("## Tasks (Preserved)"), [],
       cxLine1, cxLine2] 0 12000 =
    [S ("## Recent Snapshot"), [], cxLine2, [], S ("## Tasks (Preserved)"), [],
     cxLine2] := by
  have h1 : (S ("## Recent Snapshot")).length = 18 := by decide
  have h2 : (S ("## Tasks (Preserved)")).length = 20 := by decide
  rw [keepWithinChars_cons, if_neg (by norm_num [h1])]
  rw [keepWithinChars_cons, if_neg (by norm_num [h1])]
  rw [keepWithinChars_cons, if_neg (by norm_num [h1, cxLine2_length])]
  rw [keepWithinChars_cons, if_neg (by norm_num [h1, cxLine2_length])]
  rw [keepWithinChars_cons, if_neg (by norm_num [h1, h2, cxLine2_length])]
  rw [keepWithinChars_cons, if_neg (by norm_num [h1, h2, cxLine2_length])]
  rw [keepWithinChars_cons, if_pos (by norm_num [h1, h2, cxLine1_length, cxLine2_length])]
  rw [keepWithinChars_cons, if_neg (by norm_num [h1, h2, cxLine2_length])]
  rfl

/-- What the final guard leaves of the assembled text (before the marker). -/
def cxFinalBody : Str :=
  S ("## Recent Snapshot") ++ '\n' :: '\n' ::
    (cxLine2 ++ '\n' :: '\n' ::
      (S ("## Tasks (Preserved)") ++ '\n' :: '\n' :: cxLine2))

theorem cx_join_kept :
    joinNl [S ("## Recent Snapshot"), [], cxLine2, [], S ("## Tasks (Preserved)"), [],
      cxLine2] = cxFinalBody := by
  rw [joinNl_cons2, joinNl_cons2, joinNl_cons2, joinNl_cons2, joinNl_cons2,
    joinNl_cons2]
  rfl

theorem cxLine2_ne_nil : cxLine2 ≠ [] := by
  intro h0
  have h1 := cxLine2_length
  rw [h0] at h1
  simp at h1

theorem cxFinalBody_getLast : cxFinalBody.getLast? = some 'o' := by
  unfold cxFinalBody
  rw [getLast?_append_ne (by simp)]
  rw [getLast?_cons2 (by simp)]
  rw [getLast?_append_ne (by simp)]
  rw [getLast?_cons2 (by simp [cxLine2_ne_nil])]
  rw [getLast?_append_ne (by simp)]
  rw [getLast?_cons2 cxLine2_ne_nil]
  exact cxLine2_getLast

theorem jsTrim_cxFinalBody : jsTrim cxFinalBody = cxFinalBody := by
  apply jsTrim_eq_self
  · intro c hc
    have hh : cxFinalBody.head? = some '#' := rfl
    rw [hh] at hc
    simp at hc
    rw [← hc]
    decide
  · intro c hc
    rw [cxFinalBody_getLast] at hc
    simp at hc
    rw [← hc]
    decide

theorem cxFinalBody_length : cxFinalBody.length = 11992 := by
  have h1 : (S ("## Recent Snapshot")).length = 18 := by decide
  have h2 : (S ("## Tasks (Preserved)")).length = 20 := by decide
  unfold cxFinalBody
  simp only [List.length_append, List.length_cons]
  rw [h1, h2, cxLine2_length]

theorem cx_build : buildObsidianSafeSnapshot cxRaw 12000 =
    cxFinalBody ++ S ("\n\n") ++ truncMarker := by
  simp only [buildObsidianSafeSnapshot]
  rw [cxRaw_facts.1, cxRaw_facts.2]
  rw [if_neg cxRaw_ne_nil]
  rw [if_neg (by rw [cxRaw_length]; norm_num)]
  rw [if_neg (by rw [cx_assembled_eq, cxAssembled_length]; norm_num)]
  rw [cx_assembled_eq, cxAssembled_split, cx_kept, cx_join_kept, jsTrim_cxFinalBody]

/-! ### Concrete inputs used by the claim counterexamples and witnesses -/

/-- An over-budget input at budget 20 whose wikilink is lost by the final
character guard. -/
def cxWiki : Str := S ("x [[zzlink]]\nwwwwwwwwwwww")

/-- An over-budget input at budget 20 whose output opens with the synthesized
section header. -/
def cxC6 : Str := S ("ab [[link]]\nssssssssssssss")

/-- A one-line input that exceeds budget 200 while its assembled result fits,
so its wikilink and tag survive. -/
def wWiki : Str := S ("x [[L]] #tg ") ++ List.replicate 238 'q'

/-- A cache entry for today whose combined hash matches the fresh one (under
the identity stand-in for sha256) but whose stored snapshot is empty. -/
def cxC3Entry : CacheEntry := ⟨S ("dh"), S ("gh"), S ("x"), [], 1, S ("t0")⟩

/-- A cache entry for today with matching combined hash and a non-empty
stored snapshot: a genuine cache hit. -/
def cxHitEntry : CacheEntry := ⟨S ("dh"), S ("gh"), S ("x"), S ("snap"), 1, S ("t0")⟩

/-- A prior cache entry whose checkpoint is one line. -/
def cxC4Entry : CacheEntry := ⟨S ("nh"), S ("gh"), S ("ch"), S ("snap"), 1, S ("iso")⟩

/-- A whitespace-only line (spec-side notion of a blank line). -/
def isBlankLine (l : Str) : Bool := jsTrim l = []

/-- Spec-modelled definition for the C4 comparison, following the spec words
"the trailing k lines trimmed of leading and trailing blank lines": drop
whitespace-only lines at both ends of the line list, keep the lines
themselves intact, then join. -/
def specDeltaTrimBlankLines (lines : List Str) : Str :=
  joinNl (((lines.dropWhile isBlankLine).reverse.dropWhile isBlankLine).reverse)

/-- Spec-modelled delta: the lines from the checkpoint index to the end,
trimmed of surrounding blank lines. -/
def specDeltaOf (checkpoint : Nat) (normalized : Str) : Str :=
  specDeltaTrimBlankLines ((splitNl normalized).drop checkpoint)

theorem deltaOf_some (ds : CacheEntry) (normalized : Str) :
    deltaOf (some ds) normalized =
      if (lineCountOf normalized : Int) > ds.lastLineCount then
        jsTrim (joinNl (jsSliceFrom ds.lastLineCount (splitNl normalized)))
      else [] := rfl

theorem readBootstrapState_some (parse : Str → Except Unit JsValue) (s : Str) :
    readBootstrapState parse (some s) =
      match parse s with
      | .error _ => []
      | .ok parsed =>
        if truthy parsed ∧ typeofObject parsed then jsObjEntries parsed else [] := rfl

/-! ## The claims -/

/-- C1 counterexample: at the configured 12000-character budget there is an
input whose truncator output is longer than the budget — the second-stage
trim fires and the fixed marker is appended after the within-budget trim,
giving 12059 characters. -/
theorem C1_counterexample :
    MAX_SNAPSHOT_CHARS < (buildObsidianSafeSnapshot cxRaw MAX_SNAPSHOT_CHARS).length := by
  have h12 : MAX_SNAPSHOT_CHARS = 12000 := rfl
  have h2 : (S ("\n\n")).length = 2 := by decide
  have h3 : truncMarker.length = 65 := by decide
  rw [h12, cx_build]
  rw [List.length_append, List.length_append, cxFinalBody_length, h2, h3]
  norm_num

/-- C1 (amended): the truncator output is bounded by the character budget
plus 67 — the budget-respecting second-stage trim plus the fixed marker tail
(two newlines and the 65-character marker) appended after it. -/
theorem C1_theorem (raw : Str) (maxChars : Nat) :
    (buildObsidianSafeSnapshot raw maxChars).length ≤ maxChars + 67 :=
  buildObsidianSafeSnapshot_length_le raw maxChars

/-- C2 counterexample: a governance document whose trimmed body sits exactly
at the 1200-token sub-budget makes the emitted governance block (header
prepended after the trim) estimate to 1206 tokens, over the 40% share. -/
theorem C2_counterexample :
    GOVERNANCE_TOKEN_BUDGET <
      estimateTokens (buildUnifiedSnapshot [] govC MAX_SNAPSHOT_TOKENS) := by
  rw [buildUnifiedSnapshot_govC, govHeader_govC_tokens]
  decide

/-- C2 (amended): the trimmed governance body respects the 40% sub-budget and
the trimmed daily body respects min(remaining, 60%), but headers are added
after the trims, so the unified output is only bounded by the total token
budget plus 11 tokens of fixed header and separator overhead. -/
theorem C2_theorem (d g : Str) :
    estimateTokens (trimmedGovOf g) ≤ GOVERNANCE_TOKEN_BUDGET ∧
    (∀ rem : Int, estimateTokens (trimmedDailyOf d rem) ≤ max (dailyBudgetOf rem) 0) ∧
    estimateTokens (buildUnifiedSnapshot d g MAX_SNAPSHOT_TOKENS) ≤
      MAX_SNAPSHOT_TOKENS + 11 :=
  ⟨trimmedGovOf_tokens_le g, fun rem => trimmedDailyOf_tokens_le d rem,
    buildUnifiedSnapshot_tokens_le d g⟩

/-- C3 counterexample: an entry for today whose stored combined hash equals
the freshly computed one but whose snapshot is empty is rebuilt — the hit
test is not the hash equality alone. -/
theorem C3_counterexample :
    lookupEntry (S ("d")) [(S ("d"), cxC3Entry)] = some cxC3Entry ∧
    cxC3Entry.combinedHash = combinedHashOf (fun s => s) (S ("x")) [] ∧
    (handlerCore (fun s => s) (S ("d")) [(S ("d"), cxC3Entry)]
      (S ("x")) [] (S ("t"))).rebuilt = true := by
  refine ⟨rfl, rfl, ?_⟩
  unfold handlerCore
  rw [show lookupEntry (S ("d")) [(S ("d"), cxC3Entry)] = some cxC3Entry from rfl]
  dsimp only
  rw [if_neg (fun h => h.2 rfl)]
  rfl

/-- C3 (amended): a cache hit happens exactly when an entry exists for today
with a matching combined hash AND a non-empty stored snapshot; on a hit the
stored snapshot is returned verbatim and the state mapping (including the
entry's timestamp) is unchanged. -/
theorem C3_theorem (hash : Str → Str) (today : Str) (st : BootstrapState)
    (daily gov now : Str) :
    ((handlerCore hash today st daily gov now).rebuilt = false ↔
      ∃ e, lookupEntry today st = some e ∧
        e.combinedHash = combinedHashOf hash daily gov ∧ e.snapshot ≠ []) ∧
    ((handlerCore hash today st daily gov now).rebuilt = false →
      (handlerCore hash today st daily gov now).state = st ∧
      ∃ e, lookupEntry today st = some e ∧
        (handlerCore hash today st daily gov now).snapshot = e.snapshot) :=
  ⟨handlerCore_rebuilt_iff hash today st daily gov now,
    handlerCore_hit_state hash today st daily gov now⟩

/-- C3 witness: a concrete same-content second invocation is a hit. -/
theorem C3_witness :
    (handlerCore (fun s => s) (S ("d")) [(S ("d"), cxHitEntry)]
      (S ("x")) [] (S ("t2"))).rebuilt = false := by
  rw [(C3_theorem (fun s => s) (S ("d")) [(S ("d"), cxHitEntry)] (S ("x")) [] (S ("t2"))).1]
  exact ⟨cxHitEntry, rfl, rfl, by decide⟩

/-- C4 counterexample: with a one-line checkpoint and current content of two
lines whose trailing line starts with spaces, the code's delta strips the
leading spaces (full string trim), while the spec's blank-line trimming
keeps them. -/
theorem C4_counterexample :
    deltaOf (some cxC4Entry) (S ("a\n  x")) = S ("x") ∧
    specDeltaOf 1 (S ("a\n  x")) = S ("  x") ∧
    deltaOf (some cxC4Entry) (S ("a\n  x")) ≠ specDeltaOf 1 (S ("a\n  x")) := by
  decide

/-- C4 (amended): on rebuild with a prior entry, a strictly larger current
line count makes the delta the JavaScript trim (full leading and trailing
whitespace removal) of the joined trailing lines from the checkpoint index;
no prior entry, or a line count not above the checkpoint, gives the empty
delta. -/
theorem C4_theorem (ds : CacheEntry) (normalized : Str) :
    deltaOf none normalized = [] ∧
    ((lineCountOf normalized : Int) ≤ ds.lastLineCount →
      deltaOf (some ds) normalized = []) ∧
    ((lineCountOf normalized : Int) > ds.lastLineCount →
      deltaOf (some ds) normalized =
        jsTrim (joinNl (jsSliceFrom ds.lastLineCount (splitNl normalized)))) := by
  refine ⟨rfl, ?_, ?_⟩
  · intro h
    rw [deltaOf_some, if_neg (by omega)]
  · intro h
    rw [deltaOf_some, if_pos h]

/-- C4 witness: the rebuild delta at a concrete two-extra-line document. -/
theorem C4_witness :
    deltaOf (some cxC4Entry) (S ("a\nb\nc")) =
      jsTrim (joinNl (jsSliceFrom 1 (splitNl (S ("a\nb\nc"))))) :=
  (C4_theorem cxC4Entry (S ("a\nb\nc"))).2.2 (by decide)

/-- C5 counterexample: an input over budget 20 whose wikilink token appears
in no output position — the final character guard drops the extraction
sections, so structural preservation fails for inputs whose assembled result
is itself over budget. -/
theorem C5_counterexample :
    20 < (jsTrim (normalizeNewlines cxWiki)).length ∧
    S ("[[zzlink]]") ∈ extractWikilinks (jsTrim (normalizeNewlines cxWiki)) ∧
    containsSeg (S ("[[zzlink]]")) (buildObsidianSafeSnapshot cxWiki 20) = false := by
  decide

/-- C5 (amended): when the input exceeds the budget and the assembled
sectioned result fits within it, every extracted wikilink and tag token of
the normalized input appears in the truncator output. -/
theorem C5_theorem {raw : Str} {maxChars : Nat} {tok : Str}
    (h1 : maxChars < (jsTrim (normalizeNewlines raw)).length)
    (h2 : (assembledOf (jsTrim (normalizeNewlines raw)) maxChars).length ≤ maxChars)
    (htok : tok ∈ extractWikilinks (jsTrim (normalizeNewlines raw)) ∨
      tok ∈ extractTags (jsTrim (normalizeNewlines raw))) :
    containsSeg tok (buildObsidianSafeSnapshot raw maxChars) = true := by
  rw [buildObsidianSafeSnapshot_eq_assembled h1 h2]
  rcases htok with h | h
  · exact extractWikilinks_in_assembled h
  · exact extractTags_in_assembled h

/-- C5 witness: a concrete over-budget input whose wikilink survives. -/
theorem C5_witness :
    containsSeg (S ("[[L]]")) (buildObsidianSafeSnapshot wWiki 200) = true :=
  C5_theorem (by decide) (by decide) (Or.inl (by decide))

/-- C6 counterexample: the truncated output of an over-budget input contains
the synthesized line of the Recent Snapshot section header, which is not a
line of the input. -/
theorem C6_counterexample :
    S ("## Recent Snapshot") ∈ splitNl (buildObsidianSafeSnapshot cxC6 20) ∧
    S ("## Recent Snapshot") ∉ splitNl (jsTrim (normalizeNewlines cxC6)) := by
  decide

/-- C6 (amended): line-atomicity holds for the excerpt stage — every line
kept by the whole-line clip is a verbatim line of the input (the full output
additionally carries synthesized section headers and the marker). -/
theorem C6_theorem {lines : List Str} {maxChars : Nat} {x : Str}
    (hx : x ∈ clipFromTailByLine lines maxChars) : x ∈ lines :=
  clipFromTailByLine_mem hx

/-- C6 witness: a concretely kept line is an input line. -/
theorem C6_witness : S ("bb") ∈ [S ("aa"), S ("xxxxxxxxxxxx"), S ("bb")] :=
  C6_theorem
    (show S ("bb") ∈ clipFromTailByLine [S ("aa"), S ("xxxxxxxxxxxx"), S ("bb")] 7 by decide)

/-- C7 counterexample: at budget floor(11 times 0.65) = 7 the backward scan
skips the oversized middle line and keeps both its neighbours, so the
retained excerpt is not a suffix (not a contiguous block of final lines) of
the input. -/
theorem C7_counterexample :
    clipFromTailByLine [S ("aa"), S ("xxxxxxxxxxxx"), S ("bb")] (clipBudget 11) =
      [S ("aa"), S ("bb")] ∧
    ∀ k : Nat,
      clipFromTailByLine [S ("aa"), S ("xxxxxxxxxxxx"), S ("bb")] (clipBudget 11) ≠
        [S ("aa"), S ("xxxxxxxxxxxx"), S ("bb")].drop k := by
  have h : clipFromTailByLine [S ("aa"), S ("xxxxxxxxxxxx"), S ("bb")] (clipBudget 11) =
      [S ("aa"), S ("bb")] := by decide
  refine ⟨h, ?_⟩
  intro k hk
  rw [h] at hk
  have hlen := congrArg List.length hk
  simp [List.length_drop] at hlen
  have hk1 : k = 1 := by omega
  rw [hk1] at hk
  exact absurd hk (by decide)

/-- C7 (amended): the first stage picks whole input lines by a backward
greedy scan with skip-and-continue semantics: every kept line is a verbatim
input line, the picked line costs fit the reduced budget, and the picked
indices stay in document order — but the picked set need not be contiguous. -/
theorem C7_theorem (lines : List Str) (maxChars : Nat) :
    (∀ x ∈ clipFromTailByLine lines maxChars, x ∈ lines) ∧
    pickCost lines (pickedDescOf lines maxChars) ≤ maxChars ∧
    List.Pairwise (· > ·) (pickedDescOf lines maxChars) :=
  ⟨fun _ hx => clipFromTailByLine_mem hx, pickedDescOf_cost lines maxChars,
    pickedDescOf_sorted lines maxChars⟩

/-- C7 witness: the concrete skip-and-continue pick stays within budget and
inside the input. -/
theorem C7_witness :
    S ("bb") ∈ [S ("aa"), S ("xxxxxxxxxxxx"), S ("bb")] ∧
    pickCost [S ("aa"), S ("xxxxxxxxxxxx"), S ("bb")]
      (pickedDescOf [S ("aa"), S ("xxxxxxxxxxxx"), S ("bb")] 7) ≤ 7 :=
  ⟨(C7_theorem [S ("aa"), S ("xxxxxxxxxxxx"), S ("bb")] 7).1 (S ("bb")) (by decide),
    (C7_theorem [S ("aa"), S ("xxxxxxxxxxxx"), S ("bb")] 7).2.1⟩

/-- C8 counterexample: a keyword section closed by a DEEPER heading — the
spec says capture continues until an equal-or-higher heading, but the code
stops at the three-hash sub-heading, losing the line after it. -/
theorem C8_counterexample :
    headingTest (S ("### Details")) = true ∧
    extractCriticalConstraints (S ("## Safety\nrule A\n### Details\nrule B")) =
      S ("## Safety\nrule A") ∧
    containsSeg (S ("rule B"))
      (extractCriticalConstraints (S ("## Safety\nrule A\n### Details\nrule B"))) = false := by
  decide

/-- C8 (amended): a section whose heading matches a priority keyword is
captured in full until the next heading of ANY level, and every
strong-keyword bullet line appears (trimmed, deduplicated) in the output
together with the synthesized Absolute Constraints heading. -/
theorem C8_theorem :
    (∀ (hline h2 : Str) (body rest : List Str),
      headingTest hline = true →
      keywordsIn (hline.map asciiLower) = true →
      (∀ l ∈ body, headingTest l = false) →
      headingTest h2 = true →
      (∀ l ∈ hline :: (body ++ h2 :: rest), '\n' ∉ l) →
      containsSeg (jsTrim (joinNl (hline :: body)))
        (extractCriticalConstraints (joinNl (hline :: (body ++ h2 :: rest)))) = true) ∧
    (∀ (text l : Str), l ∈ splitNl text → isStrongLine l = true →
      containsSeg (jsTrim l) (extractCriticalConstraints text) = true ∧
      containsSeg (S ("## Absolute Constraints")) (extractCriticalConstraints text) = true) :=
  ⟨fun _ _ _ _ ha hb hc hd he => extractCriticalConstraints_section ha hb hc hd he,
    fun _ _ ha hb => extractCriticalConstraints_strong ha hb⟩

/-- C8 witness: the concrete Safety section is captured up to the next
heading. -/
theorem C8_witness :
    containsSeg (jsTrim (joinNl [S ("## Safety"), S ("rule A")]))
      (extractCriticalConstraints
        (joinNl [S ("## Safety"), S ("rule A"), S ("### Details"), S ("rule B")])) = true :=
  C8_theorem.1 (S ("## Safety")) (S ("### Details")) [S ("rule A")] [S ("rule B")]
    (by decide) (by decide) (by decide) (by decide) (by decide)

/-- C9: loading the persisted state never throws — a missing file, a parse
error, or a parsed value that is not a truthy object yields the empty
mapping, and a truthy object yields its entries. -/
theorem C9_theorem (parse : Str → Except Unit JsValue) :
    readBootstrapState parse none = [] ∧
    (∀ s, parse s = .error () → readBootstrapState parse (some s) = []) ∧
    (∀ s v, parse s = .ok v → truthy v = false ∨ typeofObject v = false →
      readBootstrapState parse (some s) = []) ∧
    (∀ s v, parse s = .ok v → truthy v = true ∧ typeofObject v = true →
      readBootstrapState parse (some s) = jsObjEntries v) := by
  refine ⟨rfl, ?_, ?_, ?_⟩
  · intro s h
    rw [readBootstrapState_some, h]
  · intro s v h hv
    rw [readBootstrapState_some, h]
    dsimp only
    rw [if_neg (by rcases hv with hv | hv <;> simp [hv])]
  · intro s v h hv
    rw [readBootstrapState_some, h]
    dsimp only
    rw [if_pos ⟨hv.1, hv.2⟩]

/-- C9 witness: a concretely malformed file loads as the empty mapping. -/
theorem C9_witness :
    readBootstrapState (fun _ => Except.error ()) (some (S ("x"))) = [] :=
  (C9_theorem (fun _ => Except.error ())).2.1 (S ("x")) rfl

/-- C10: on a cache hit the state mapping is written back unchanged; on a
rebuild only today's entry is created or replaced, and every other date's
entry is looked up unchanged. -/
theorem C10_theorem (hash : Str → Str) (today : Str) (st : BootstrapState)
    (daily gov now : Str) :
    ((handlerCore hash today st daily gov now).rebuilt = false →
      (handlerCore hash today st daily gov now).state = st) ∧
    ((handlerCore hash today st daily gov now).rebuilt = true →
      lookupEntry today (handlerCore hash today st daily gov now).state =
        some (rebuiltEntryOf (lookupEntry today st) (normalizeNewlines daily) gov now
          (hash (normalizeNewlines daily)) (hash gov) (combinedHashOf hash daily gov)
          (lineCountOf (normalizeNewlines daily)))) ∧
    (∀ d, d ≠ today →
      lookupEntry d (handlerCore hash today st daily gov now).state = lookupEntry d st) := by
  refine ⟨?_, ?_, ?_⟩
  · intro h
    exact (handlerCore_hit_state hash today st daily gov now h).1
  · intro h
    rw [handlerCore_rebuild_state hash today st daily gov now h]
    exact lookupEntry_setEntry_self _ _ _
  · intro d hd
    cases hr : (handlerCore hash today st daily gov now).rebuilt with
    | false => rw [(handlerCore_hit_state hash today st daily gov now hr).1]
    | true =>
      rw [handlerCore_rebuild_state hash today st daily gov now hr]
      exact lookupEntry_setEntry_ne hd _ _

/-- C10 witness: another date's entry is unchanged by a concrete rebuild. -/
theorem C10_witness :
    lookupEntry (S ("e"))
      (handlerCore (fun s => s) (S ("d")) [] (S ("x")) [] (S ("t"))).state =
      lookupEntry (S ("e")) ([] : BootstrapState) :=
  (C10_theorem (fun s => s) (S ("d")) [] (S ("x")) [] (S ("t"))).2.2 (S ("e")) (by decide)

end Hook
